import Mathlib

/-!
# Verification of the gssa-rs video-memory allocators and handles

Shallow embedding of the parts of the `gssa-rs` repository that the
verified properties are about:

* `haldvance_block/src/lib.rs` — the `Blocks` span allocator
  (`insert_sized`, `remove`, `replace_id`, `cleanup`, `offset_of`).
* `haldvance_utils/src/bitset.rs` — `Bitset128`
  (`first_free`, `reserve`, `free`).
* `haldvance/src/video/object.rs` — sprite allocator constants and the
  object `Handle` attribute setters (`set_sprite`, `set_palette_mode`).
* `haldvance/src/video/tile/layer.rs` — the background-layer `Handle`
  with its write-back-on-drop discipline.
* `haldvance/src/video/tile.rs` and `tile/sbb.rs` — the affine
  screen-map handle (`set_line`, `set_couple_unchecked`,
  `set_unique_unchecked`, `align_2`/`entrify` packing).

Machine integers (`u16` sizes and offsets) are modelled as `Nat` with an
explicit `% 65536` wherever the Rust code performs `u16` arithmetic that
may wrap.  Fallible operations return `Option`, and operations that in
Rust mutate `&mut self` are modelled as functions returning the new state
(paired with the Rust return value).
-/

namespace GssaRs

/-- `2^16`: modulus of the `u16` arithmetic used by the span allocator. -/
def U16MOD : Nat := 65536

/-! ## `haldvance_block`: the `Blocks` span allocator

`Block<Id>` is `Gap(u16) | Full(Id, u16)`.  `Blocks<Id, MAX_BLOCKS>` holds an
`ArrayVec<Block<Id>, MAX_BLOCKS>` and a `full_size: u16`; the `ArrayVec` is
modelled as a `List` together with the capacity `max_blocks`, and the const
generic `MAX_BLOCKS` is carried as a field. -/

inductive Block (Id : Type) where
  /-- A void of given size left from something that was removed. -/
  | Gap (size : Nat)
  /-- Something identified by `Id` that takes the given space. -/
  | Full (id : Id) (size : Nat)
deriving DecidableEq

namespace Block

variable {Id : Type}

/-- `Block::size`: the size of either variant. -/
def size : Block Id → Nat
  | .Gap s => s
  | .Full _ s => s

/-- `Block::has_id`: whether the block is `Full` with the given id. -/
def has_id [DecidableEq Id] (id : Id) : Block Id → Bool
  | .Full i _ => i = id
  | .Gap _ => false

/-- Whether the block is a `Gap`. -/
def isGap : Block Id → Bool
  | .Gap _ => true
  | .Full _ _ => false

end Block

/-- `Blocks<Id, MAX_BLOCKS>`: the span allocator state. -/
structure Blocks (Id : Type) where
  blocks : List (Block Id)
  max_blocks : Nat
  full_size : Nat
deriving DecidableEq

variable {Id : Type}

/-- `Blocks::new(full_size)`: empty allocator (the const generic
`MAX_BLOCKS` is passed explicitly). -/
def Blocks.new (max_blocks full_size : Nat) : Blocks Id :=
  ⟨[], max_blocks, full_size⟩

/-- `Blocks::first_gap_of_size`: index and size of the first (lowest-index)
`Gap` whose size is at least `size`. -/
def first_gap_of_size : List (Block Id) → Nat → Option (Nat × Nat)
  | [], _ => none
  | .Gap g :: rest, size =>
      if size ≤ g then some (0, g)
      else (first_gap_of_size rest size).map fun p => (p.1 + 1, p.2)
  | .Full _ _ :: rest, size =>
      (first_gap_of_size rest size).map fun p => (p.1 + 1, p.2)

/-- `iter().map(Block::size).sum::<u16>()`: wrapping `u16` sum of the sizes. -/
def sum_u16 (l : List (Block Id)) : Nat :=
  l.foldl (fun acc b => (acc + b.size) % U16MOD) 0

/-- Mathematical (unwrapped) sum of the sizes, for stating invariants. -/
def totalNat (l : List (Block Id)) : Nat :=
  (l.map Block.size).sum

/-- `Blocks::offset_of`, on the list: walk the blocks accumulating the
wrapping `u16` sum of sizes until a block with the id is found. -/
def offset_of_list [DecidableEq Id] : List (Block Id) → Id → Nat → Option Nat
  | [], _, _ => none
  | b :: rest, id, acc =>
      if b.has_id id then some acc
      else offset_of_list rest id ((acc + b.size) % U16MOD)

/-- `Blocks::offset_of`. -/
def Blocks.offset_of [DecidableEq Id] (s : Blocks Id) (id : Id) : Option Nat :=
  offset_of_list s.blocks id 0

/-- First loop of `Blocks::cleanup` (right-to-left): redefine each `Gap`
size as the wrapping sum of it and all subsequent adjacent gap sizes.
Returns the rewritten list together with the running `cur_gap` value in
effect just left of the list (0 after a `Full`). -/
def cleanup_pass1 : List (Block Id) → List (Block Id) × Nat
  | [] => ([], 0)
  | b :: rest =>
    let pr := cleanup_pass1 rest
    match b with
    | .Full i s => (.Full i s :: pr.1, 0)
    | .Gap s => (.Gap ((s + pr.2) % U16MOD) :: pr.1, (s + pr.2) % U16MOD)

/-- Second loop of `Blocks::cleanup` (`retain`): drop every `Gap` whose
immediately preceding scanned element was also a `Gap`. -/
def cleanup_pass2 : List (Block Id) → Bool → List (Block Id)
  | [], _ => []
  | b :: rest, previous_was_gap =>
    if previous_was_gap && b.isGap then cleanup_pass2 rest b.isGap
    else b :: cleanup_pass2 rest b.isGap

/-- `Blocks::cleanup`, on the list.  (The final trailing-gap `pop` in the
source is commented out and does nothing.) -/
def cleanup_list (l : List (Block Id)) : List (Block Id) :=
  cleanup_pass2 (cleanup_pass1 l).1 false

/-- `Blocks::cleanup`. -/
def Blocks.cleanup (s : Blocks Id) : Blocks Id :=
  { s with blocks := cleanup_list s.blocks }

/-- `Blocks::replace_gap`: inserts `id` into the blocks, returning the new
state and the block index (`none` on `ArrayVec` capacity failure; the
mutations already performed are kept, as in the source). -/
def Blocks.replace_gap (s : Blocks Id) (id : Id) (size : Nat) :
    Blocks Id × Option Nat :=
  match first_gap_of_size s.blocks size with
  | some (index, gap_size) =>
    if size < gap_size then
      let blocks1 := s.blocks.set index (.Full id size)
      if s.blocks.length = s.max_blocks then
        ({ s with blocks := blocks1 }, none)
      else
        ({ s with blocks :=
            cleanup_list (blocks1.insertIdx (index + 1) (.Gap (gap_size - size))) },
          some index)
    else
      ({ s with blocks := s.blocks.set index (.Full id size) }, some index)
  | none =>
    if s.blocks.length = s.max_blocks then (s, none)
    else ({ s with blocks := s.blocks ++ [.Full id size] }, some s.blocks.length)

/-- `Blocks::insert_sized`: insert `id` of given `size`, returning the new
state and the offset from the start of the arena (`none` on failure). -/
def Blocks.insert_sized [DecidableEq Id] (s : Blocks Id) (id : Id) (size : Nat) :
    Blocks Id × Option Nat :=
  match s.offset_of id with
  | some off => (s, some off)
  | none =>
    match s.replace_gap id size with
    | (s', some insert_index) =>
      let offset := sum_u16 (s'.blocks.take insert_index)
      (s', if (offset + size) % U16MOD ≤ s'.full_size then some offset else none)
    | (s', none) => (s', none)

/-- Helper for `Blocks::remove`: convert the first block with the id into a
`Gap` of the same size (`iter_mut().find`). -/
def mark_first_gap [DecidableEq Id] (id : Id) : List (Block Id) → List (Block Id)
  | [] => []
  | b :: rest =>
      if b.has_id id then .Gap b.size :: rest else b :: mark_first_gap id rest

/-- `Blocks::remove`: blank out `id` then `cleanup`; `true` iff found. -/
def Blocks.remove [DecidableEq Id] (s : Blocks Id) (id : Id) : Blocks Id × Bool :=
  if s.blocks.any (Block.has_id id) then
    ({ s with blocks := cleanup_list (mark_first_gap id s.blocks) }, true)
  else (s, false)

/-- Helper for `Blocks::replace_id`: find the first block equal to
`Full(old, size)`, swap its id to `new`, accumulating the wrapping `u16`
offset of every block scanned before the match. -/
def replace_id_list [DecidableEq Id] : List (Block Id) → Id → Id → Nat → Nat →
    Option (List (Block Id) × Nat)
  | [], _, _, _, _ => none
  | b :: rest, old, new, size, acc =>
      if b = .Full old size then some (.Full new size :: rest, acc)
      else (replace_id_list rest old new size ((acc + b.size) % U16MOD)).map
             fun p => (b :: p.1, p.2)

/-- `Blocks::replace_id`. -/
def Blocks.replace_id [DecidableEq Id] (s : Blocks Id) (old new : Id) (size : Nat) :
    Blocks Id × Option Nat :=
  match replace_id_list s.blocks old new size 0 with
  | some (l, off) => ({ s with blocks := l }, some off)
  | none => (s, none)

/-! ### Specification-level characterization of `cleanup`

`merge_gap_runs` replaces every maximal run of adjacent `Gap` entries by a
single `Gap` sized as the (wrapping `u16`) sum of the run, leaving `Full`
entries in place.  `Blocks::cleanup` is proved equal to it below. -/

/-- Wrapping `u16` sum of the maximal `Gap` prefix of a list. -/
def gap_run_size : List (Block Id) → Nat
  | .Gap s :: rest => (s + gap_run_size rest) % U16MOD
  | _ => 0

/-- Drop the maximal `Gap` prefix of a list. -/
def drop_gap_run : List (Block Id) → List (Block Id)
  | .Gap _ :: rest => drop_gap_run rest
  | l => l

theorem drop_gap_run_length (l : List (Block Id)) :
    (drop_gap_run l).length ≤ l.length := by
  induction l with
  | nil => simp [drop_gap_run]
  | cons b rest ih =>
    cases b with
    | Gap s => simpa [drop_gap_run] using Nat.le_succ_of_le ih
    | Full i s => simp [drop_gap_run]

/-- The specification of gap merging: each maximal run of adjacent gaps
becomes one `Gap` holding the wrapping sum of the run. -/
def merge_gap_runs : List (Block Id) → List (Block Id)
  | [] => []
  | .Full i s :: rest => .Full i s :: merge_gap_runs rest
  | .Gap s :: rest =>
      .Gap ((s + gap_run_size rest) % U16MOD) :: merge_gap_runs (drop_gap_run rest)
termination_by l => l.length
decreasing_by
  · simp
  · have := drop_gap_run_length rest
    simp
    omega

/-- No two adjacent `Gap` entries (the state `first_gap_of_size` documents
it assumes, maintained by every public operation). -/
def GapClean (l : List (Block Id)) : Prop :=
  l.Chain' fun a b => a.isGap = false ∨ b.isGap = false

/-- Executable check for `GapClean`. -/
def gap_clean_b : List (Block Id) → Bool
  | [] => true
  | [_] => true
  | b :: b' :: rest => (!(b.isGap && b'.isGap)) && gap_clean_b (b' :: rest)

theorem gap_clean_b_iff (l : List (Block Id)) :
    gap_clean_b l = true ↔ GapClean l := by
  unfold GapClean
  induction l with
  | nil => simp [gap_clean_b]
  | cons b rest ih =>
    cases rest with
    | nil => simp [gap_clean_b]
    | cons b' r =>
      rw [List.chain'_cons]
      simp only [gap_clean_b, Bool.and_eq_true, ih]
      constructor
      · rintro ⟨h1, h2⟩
        refine ⟨?_, h2⟩
        cases hb : b.isGap <;> cases hb' : b'.isGap <;> simp_all
      · rintro ⟨h1, h2⟩
        refine ⟨?_, h2⟩
        rcases h1 with h | h <;> simp [h]

instance (l : List (Block Id)) : Decidable (GapClean l) :=
  decidable_of_iff _ (gap_clean_b_iff l)

/-- Gaps of a gap-clean list reduced mod `2^16`: what `cleanup` does to a
list that is already clean. -/
def reduce_gaps (l : List (Block Id)) : List (Block Id) :=
  l.map fun b => match b with
    | .Gap s => .Gap (s % U16MOD)
    | .Full i s => .Full i s

/-- Mathematical (unwrapped) sum of the maximal `Gap` prefix. -/
def gap_run_nat : List (Block Id) → Nat
  | .Gap s :: rest => s + gap_run_nat rest
  | _ => 0

/-! ### Call sequences on the span allocator

Used to state reachability claims.  Ids are instantiated at `Nat`
(any type with decidable equality would do; the source only requires
`PartialEq + Copy`). -/

/-- One public call on a `Blocks` allocator. -/
inductive AllocOp where
  | ins (id size : Nat)
  | rem (id : Nat)
  | rep (old new size : Nat)
  | clean
deriving DecidableEq

/-- Apply one call, keeping the state. -/
def run_op (s : Blocks Nat) : AllocOp → Blocks Nat
  | .ins id size => (s.insert_sized id size).1
  | .rem id => (s.remove id).1
  | .rep old new size => (s.replace_id old new size).1
  | .clean => s.cleanup

/-- Apply a sequence of calls. -/
def run_ops (s : Blocks Nat) (ops : List AllocOp) : Blocks Nat :=
  ops.foldl run_op s

/-- Whether every `insert_sized` in the sequence returns `Some`. -/
def inserts_ok : Blocks Nat → List AllocOp → Bool
  | _, [] => true
  | s, op :: rest =>
    (match op with
     | .ins id size => ((s.insert_sized id size).2).isSome
     | _ => true)
    && inserts_ok (run_op s op) rest

/-- Total of the sizes requested by the `insert_sized` calls of a sequence. -/
def ins_total : List AllocOp → Nat
  | [] => 0
  | .ins _ size :: rest => size + ins_total rest
  | _ :: rest => ins_total rest

/-! ## `haldvance/src/video/object.rs`: sprite-tile allocator constants -/

/-- `const SPRITE_FULL_SIZE: u16 = 1024`. -/
def SPRITE_FULL_SIZE : Nat := 1024

/-- `const SPRITE_MAX_BLOCKS: usize = SPRITE_FULL_SIZE as usize / 2`. -/
def SPRITE_MAX_BLOCKS : Nat := SPRITE_FULL_SIZE / 2

/-- `Shape`: the twelve object shapes. -/
inductive Shape where
  | s1x1 | s2x2 | s4x4 | s8x8
  | s2x1 | s4x1 | s4x2 | s8x4
  | s1x2 | s1x4 | s2x4 | s4x8
deriving DecidableEq

/-- `Shape::tile_count`. -/
def Shape.tile_count : Shape → Nat
  | .s1x1 => 1 * 1
  | .s2x2 => 2 * 2
  | .s4x4 => 4 * 4
  | .s8x8 => 8 * 8
  | .s2x1 => 2 * 1
  | .s4x1 => 4 * 1
  | .s4x2 => 4 * 2
  | .s8x4 => 8 * 4
  | .s1x2 => 1 * 2
  | .s1x4 => 1 * 4
  | .s2x4 => 2 * 4
  | .s4x8 => 4 * 8

/-- `impl ConstDefault for Allocator`: the sprite side is
`Blocks::<sprite::Id, SPRITE_MAX_BLOCKS>::new(SPRITE_FULL_SIZE)`
(sprite ids modelled as `Nat`). -/
def sprites_default : Blocks Nat :=
  Blocks.new SPRITE_MAX_BLOCKS SPRITE_FULL_SIZE

/-- `Allocator::reserve_sprite`: `insert_sized(sprite.id, shape.tile_count())`,
returning the new sprite-allocator state and the reserved tile offset. -/
def reserve_sprite (sprites : Blocks Nat) (id : Nat) (shape : Shape) :
    Blocks Nat × Option Nat :=
  sprites.insert_sized id shape.tile_count

/-! ## `haldvance_utils/src/bitset.rs`: `Bitset128`

The `u128` word is a `Nat` kept below `2^128`.  `1 << index` on `u128` is
`2 ^ (index % 128)` (the doc comments read "Reserve/Free given
`index % 128`").  `!mask` is `(2^128 - 1) ^^^ mask`.
A stale copy of this file at `haldvance/src/bitset.rs` (method `take`
where every caller says `reserve`, and `leading_ones` where the doc
comment and callers need the lowest free index) predates this one; the
`haldvance_utils` version is the one the rest of the code compiles
against and is the one embedded here. -/

/-- `Bitset128::INDEX_COUNT = u128::BITS`. -/
def INDEX_COUNT : Nat := 128

/-- `u128::trailing_ones`, bit by bit with explicit fuel (128 bits suffice
for any `u128` value; structural recursion keeps it kernel-computable). -/
def trailing_ones_aux : Nat → Nat → Nat
  | 0, _ => 0
  | fuel + 1, v => if v % 2 = 1 then trailing_ones_aux fuel (v / 2) + 1 else 0

/-- `u128::trailing_ones`: number of consecutive set bits from bit 0. -/
def trailing_ones (v : Nat) : Nat :=
  trailing_ones_aux 128 v

/-- `Bitset128::first_free`: lowest clear index, `none` if all taken. -/
def first_free (v : Nat) : Option Nat :=
  let first := trailing_ones v
  if first < INDEX_COUNT then some first else none

/-- `Bitset128::reserve`: set the bit, return whether it was already set. -/
def reserve (v : Nat) (index : Nat) : Nat × Bool :=
  let mask := 2 ^ (index % 128)
  (v ||| mask, v &&& mask ≠ 0)

/-- `Bitset128::free`: clear the bit, return whether it was already clear. -/
def free (v : Nat) (index : Nat) : Nat × Bool :=
  let mask := 2 ^ (index % 128)
  (v &&& ((2 ^ 128 - 1) ^^^ mask), v &&& mask = 0)

/-- One `Bitset128` call. -/
inductive BitOp where
  | res (i : Nat)
  | fre (i : Nat)
deriving DecidableEq

/-- Run a sequence of reserve/free calls from a bitset value. -/
def bit_run : Nat → List BitOp → Nat
  | v, [] => v
  | v, .res i :: rest => bit_run (reserve v i).1 rest
  | v, .fre i :: rest => bit_run (free v i).1 rest

/-! ## Affine screen-map handle (`tile.rs`, `tile/sbb.rs`)

An `AffineEntry` is one 16-bit VRAM word holding two 8-bit tile indices,
`left` the low byte (even offset) and `right` the high byte (odd offset).
The SBB's word-indexed memory is a function `Nat → AffineEntry`; tile
bytes are `Nat`s (they are `u8` by type in the source, no arithmetic is
performed on them). -/

/-- `AffineEntry { left: u8, right: u8 }`. -/
structure AffineEntry where
  left : Nat
  right : Nat
deriving DecidableEq

/-- `map::AffineSize`. -/
inductive AffineSize where
  | Base | Double | Quad | Octo
deriving DecidableEq

/-- `AffineSize::region().width` (the regions are square). -/
def AffineSize.width : AffineSize → Nat
  | .Base => 16
  | .Double => 32
  | .Quad => 64
  | .Octo => 128

/-- `AffineSize::region().height`. -/
def AffineSize.height : AffineSize → Nat
  | .Base => 16
  | .Double => 32
  | .Quad => 64
  | .Octo => 128

/-- `map::Pos`. -/
structure Pos where
  x : Nat
  y : Nat
deriving DecidableEq

/-- Word-indexed affine SBB memory. -/
def AffineMem : Type := Nat → AffineEntry

/-- `VolAddress::write` at a word index. -/
def write_word (mem : AffineMem) (i : Nat) (e : AffineEntry) : AffineMem :=
  fun j => if j = i then e else mem j

/-- `AffineHandle::set_couple_unchecked`: write a whole word at
`offset / 2`. -/
def set_couple_unchecked (mem : AffineMem) (to_set : AffineEntry)
    (offset : Nat) : AffineMem :=
  write_word mem (offset / 2) to_set

/-- `AffineHandle::set_unique_unchecked`: read the word at `offset / 2`,
replace its low byte (`set_left`) if the offset is even, else its high
byte (`set_right`), write it back. -/
def set_unique_unchecked (mem : AffineMem) (to_set : Nat) (offset : Nat) :
    AffineMem :=
  let previous := mem (offset / 2)
  write_word mem (offset / 2)
    (if offset % 2 = 0 then { previous with left := to_set }
     else { previous with right := to_set })

/-- The `for entry in tile::entrify(iter)` loop of `set_line`: pairs are
written whole with `set_couple_unchecked`, a final lone tile with
`set_unique_unchecked`.  (`align_2`/`entrify` chunk the iterator into
`Ok` pairs plus at most one trailing `Err` single.) -/
def set_line_loop (mem : AffineMem) (offset : Nat) : List Nat → AffineMem
  | [] => mem
  | [left] => set_unique_unchecked mem left offset
  | a :: b :: rest =>
      set_line_loop (set_couple_unchecked mem ⟨a, b⟩ offset) (offset + 2) rest

/-- `AffineHandle::set_line`: crop the iterator to the row, write a
(possibly odd) leading tile individually, then the packed-pair loop. -/
def set_line (size : AffineSize) (mem : AffineMem) (pos : Pos)
    (tiles : List Nat) : AffineMem :=
  if pos.y ≥ size.height ∨ pos.x ≥ size.width then mem
  else
    let ts := tiles.take (size.width - pos.x)
    let offset := pos.x + pos.y * size.width
    if offset % 2 = 0 then set_line_loop mem offset ts
    else
      match ts with
      | [] => mem
      | t :: rest => set_line_loop (set_unique_unchecked mem t offset) (offset + 1) rest

/-- Byte view of the word memory: even offsets read the low byte, odd
offsets the high byte. -/
def byte_at (mem : AffineMem) (i : Nat) : Nat :=
  if i % 2 = 0 then (mem (i / 2)).left else (mem (i / 2)).right

/-! ## Background-layer handle (`tile/layer.rs`)

`BackgroundControl` is a `u16` register mirror from the external `gba`
crate; the claim is about the write discipline, not the bit packing, so
it is modelled as a record of the fields the setters touch.  A scope is:
construction (one hardware read), a sequence of setter calls, then
`Drop`, which runs `commit` (one hardware write of the local copy). -/

/-- Field-level model of `gba::mmio_types::BackgroundControl`. -/
structure BackgroundControl where
  priority : Nat
  char_base_block : Nat
  is_8bpp : Bool
  screen_base_block : Nat
  affine_overflow_wrapped : Bool
  screen_size : Nat
deriving DecidableEq

/-- One setter call on a `layer::Handle` (`set_size` covers both the
`Text` and `Affine` impls; return values of the setters are ignored,
they do not touch hardware either). -/
inductive LayerOp where
  | set_priority (p : Nat)
  | set_sbb (n : Nat)
  | set_cbb (n : Nat)
  | set_color_mode (raw : Bool)
  | set_size (n : Nat)
  | set_overflow (wraps : Bool)
deriving DecidableEq

/-- The pure effect of one setter on the handle's local copy
(each setter body is `self.value = self.value.with_...(arg)`). -/
def layer_setter (v : BackgroundControl) : LayerOp → BackgroundControl
  | .set_priority p => { v with priority := p }
  | .set_sbb n => { v with screen_base_block := n }
  | .set_cbb n => { v with char_base_block := n }
  | .set_color_mode raw => { v with is_8bpp := raw }
  | .set_size n => { v with screen_size := n }
  | .set_overflow wraps => { v with affine_overflow_wrapped := wraps }

/-- A layer scope: the handle's local copy, the hardware register it
mirrors, and how many times that register has been written. -/
structure LayerScope where
  value : BackgroundControl
  reg_value : BackgroundControl
  reg_writes : Nat
deriving DecidableEq

/-- `layer::Handle::new`: read the register into the local copy. -/
def layer_new (reg_value : BackgroundControl) (reg_writes : Nat) : LayerScope :=
  { value := reg_value, reg_value := reg_value, reg_writes := reg_writes }

/-- Running one setter inside the scope: only `value` changes. -/
def layer_step (st : LayerScope) (op : LayerOp) : LayerScope :=
  { st with value := layer_setter st.value op }

/-- `commit` (run by `Drop`): one hardware write of the local copy. -/
def layer_commit (st : LayerScope) : LayerScope :=
  { st with reg_value := st.value, reg_writes := st.reg_writes + 1 }

/-- A whole handle scope: construction, the setter calls, drop. -/
def layer_scope (reg_value : BackgroundControl) (reg_writes : Nat)
    (ops : List LayerOp) : LayerScope :=
  layer_commit (ops.foldl layer_step (layer_new reg_value reg_writes))

/-! ## Object handle attributes (`video/object.rs`)

`Attributes` is the 3-word OAM record; the fields `set_sprite` and
`set_palette_mode` touch are modelled explicitly, the rest as opaque
remainders. -/

/-- `palette::Type`. -/
inductive PaletteType where
  | Bank | Dynamic | Full
deriving DecidableEq

/-- The object `Attributes` record, split into the fields the modelled
setters write plus opaque remainders of each attribute word. -/
structure Attributes where
  attr0_use_palbank : Bool
  attr0_rest : Nat
  attr1 : Nat
  attr2_tile_index : Nat
  attr2_rest : Nat
deriving DecidableEq

/-- `object::Handle::set_sprite`: `attr0.set_use_palbank(true)` then
`attr2.set_tile_index(sprite.offset)` (the `sane_assert!` is compiled
out).  `offset` is the `sprite::Slot`'s `offset` field. -/
def set_sprite (v : Attributes) (offset : Nat) : Attributes :=
  { v with attr0_use_palbank := true, attr2_tile_index := offset }

/-- `object::Handle::set_palette_mode`:
`let use_palbank = matches!(kind, palette::Type::Bank);`
`attr0.set_use_palbank(!use_palbank)` (the negation is in the source,
with a TODO noting the `gba` crate method is wrongly named). -/
def set_palette_mode (v : Attributes) (kind : PaletteType) : Attributes :=
  let use_palbank : Bool := kind = PaletteType.Bank
  { v with attr0_use_palbank := !use_palbank }

/-! ## Lemmas: `cleanup` is gap-run merging -/

theorem u16_mod_mod (x : Nat) : x % U16MOD % U16MOD = x % U16MOD := by
  simp only [U16MOD]
  omega

theorem u16_mod_lt (x : Nat) : x % U16MOD < U16MOD := by
  simp only [U16MOD]
  omega

theorem u16_add_mod_left (a b : Nat) :
    (a % U16MOD + b) % U16MOD = (a + b) % U16MOD := by
  simp only [U16MOD]
  omega

theorem u16_add_mod_right (a b : Nat) :
    (a + b % U16MOD) % U16MOD = (a + b) % U16MOD := by
  simp only [U16MOD]
  omega

theorem cleanup_pass1_snd (l : List (Block Id)) :
    (cleanup_pass1 l).2 = gap_run_size l := by
  induction l with
  | nil => rfl
  | cons b rest ih =>
    cases b with
    | Full i s => simp [cleanup_pass1, gap_run_size]
    | Gap s => simp [cleanup_pass1, gap_run_size, ih]

theorem cleanup_pass2_pass1 (l : List (Block Id)) :
    cleanup_pass2 (cleanup_pass1 l).1 true = merge_gap_runs (drop_gap_run l) ∧
      cleanup_pass2 (cleanup_pass1 l).1 false = merge_gap_runs l := by
  induction l with
  | nil => simp [cleanup_pass1, cleanup_pass2, merge_gap_runs, drop_gap_run]
  | cons b rest ih =>
    cases b with
    | Full i s =>
      simp [cleanup_pass1, cleanup_pass2, merge_gap_runs, drop_gap_run,
        Block.isGap, ih.2]
    | Gap s =>
      simp [cleanup_pass1, cleanup_pass2, merge_gap_runs, drop_gap_run,
        Block.isGap, ih.1, cleanup_pass1_snd]

/-- `Blocks::cleanup` replaces every maximal run of adjacent `Gap` entries
with a single `Gap` sized as the wrapping `u16` sum of the run. -/
theorem cleanup_list_eq_merge (l : List (Block Id)) :
    cleanup_list l = merge_gap_runs l :=
  (cleanup_pass2_pass1 l).2

theorem drop_gap_run_shape (l : List (Block Id)) :
    drop_gap_run l = [] ∨ ∃ i s r, drop_gap_run l = .Full i s :: r := by
  induction l with
  | nil => exact .inl rfl
  | cons b rest ih =>
    cases b with
    | Gap s => simpa [drop_gap_run] using ih
    | Full i s => exact .inr ⟨i, s, rest, rfl⟩

theorem merge_head_aux (l : List (Block Id)) :
    gap_run_size (merge_gap_runs (drop_gap_run l)) = 0 ∧
      drop_gap_run (merge_gap_runs (drop_gap_run l)) =
        merge_gap_runs (drop_gap_run l) := by
  rcases drop_gap_run_shape l with h | ⟨i, s, r, h⟩ <;>
    simp [h, merge_gap_runs, gap_run_size, drop_gap_run]

theorem merge_gap_runs_idem (l : List (Block Id)) :
    merge_gap_runs (merge_gap_runs l) = merge_gap_runs l := by
  induction l using merge_gap_runs.induct with
  | case1 => simp [merge_gap_runs]
  | case2 i s rest ih => simp [merge_gap_runs, ih]
  | case3 s rest ih =>
    have h := merge_head_aux (l := rest)
    simp only [merge_gap_runs, h.1, h.2, ih, Nat.add_zero, u16_mod_mod]

theorem merge_gap_runs_gapClean (l : List (Block Id)) :
    GapClean (merge_gap_runs l) := by
  unfold GapClean at *
  induction l using merge_gap_runs.induct with
  | case1 => simp [merge_gap_runs]
  | case2 i s rest ih =>
    simp only [merge_gap_runs]
    exact List.chain'_cons'.mpr ⟨fun y _ => .inl rfl, ih⟩
  | case3 s rest ih =>
    simp only [merge_gap_runs]
    refine List.chain'_cons'.mpr ⟨fun y hy => .inr ?_, ih⟩
    rcases drop_gap_run_shape rest with h | ⟨i, s', r, h⟩
    · simp [h, merge_gap_runs] at hy
    · simp [h, merge_gap_runs] at hy
      subst hy
      rfl

theorem merge_gap_runs_of_gapClean (l : List (Block Id)) (h : GapClean l) :
    merge_gap_runs l = reduce_gaps l := by
  induction l using merge_gap_runs.induct with
  | case1 => simp [merge_gap_runs, reduce_gaps]
  | case2 i s rest ih =>
    unfold GapClean at h
    rw [List.chain'_cons'] at h
    simp [merge_gap_runs, reduce_gaps, ih h.2]
  | case3 s rest ih =>
    unfold GapClean at h
    rw [List.chain'_cons'] at h
    have hrest : gap_run_size rest = 0 ∧ drop_gap_run rest = rest := by
      cases rest with
      | nil => exact ⟨rfl, rfl⟩
      | cons b r =>
        have hb := h.1 b (by simp)
        cases b with
        | Gap g => simp [Block.isGap] at hb
        | Full i g => exact ⟨rfl, rfl⟩
    rw [merge_gap_runs, hrest.1, hrest.2]
    rw [hrest.2] at ih
    simp [reduce_gaps, ih h.2]

theorem reduce_gaps_id (l : List (Block Id)) (h : ∀ b ∈ l, b.size < U16MOD) :
    reduce_gaps l = l := by
  induction l with
  | nil => rfl
  | cons b rest ih =>
    have hb := h b (by simp)
    have hr := ih fun x hx => h x (by simp [hx])
    cases b with
    | Gap s =>
      simp only [Block.size] at hb
      simp [reduce_gaps, Nat.mod_eq_of_lt hb] at hr ⊢
      exact hr
    | Full i s => simp [reduce_gaps] at hr ⊢; exact hr

/-! ## Lemmas: `offset_of` and sizes through `cleanup` -/

theorem offset_of_list_congr_acc [DecidableEq Id] (l : List (Block Id))
    (id : Id) (a b : Nat) (h : a % U16MOD = b % U16MOD)
    (ha : a < U16MOD) (hb : b < U16MOD) :
    offset_of_list l id a = offset_of_list l id b := by
  obtain rfl : a = b := by
    rw [Nat.mod_eq_of_lt ha, Nat.mod_eq_of_lt hb] at h
    exact h
  rfl

theorem offset_of_list_drop_gap_run [DecidableEq Id] (l : List (Block Id))
    (id : Id) (acc : Nat) (hacc : acc < U16MOD) :
    offset_of_list l id acc =
      offset_of_list (drop_gap_run l) id ((acc + gap_run_size l) % U16MOD) := by
  induction l generalizing acc with
  | nil => simp [drop_gap_run, gap_run_size, offset_of_list]
  | cons b rest ih =>
    cases b with
    | Full i s =>
      have : (acc + gap_run_size (Block.Full i s :: rest)) % U16MOD = acc := by
        simp [gap_run_size, Nat.mod_eq_of_lt hacc]
      rw [this]
      simp [drop_gap_run]
    | Gap s =>
      simp only [offset_of_list, Block.has_id, Bool.false_eq_true, if_neg,
        drop_gap_run, gap_run_size, Block.size]
      rw [ih ((acc + s) % U16MOD) (u16_mod_lt _)]
      have harg : ((acc + s) % U16MOD + gap_run_size rest) % U16MOD
          = (acc + (s + gap_run_size rest) % U16MOD) % U16MOD := by
        simp only [U16MOD]
        omega
      rw [harg]
      simp

theorem offset_of_list_merge [DecidableEq Id] (l : List (Block Id)) (id : Id)
    (acc : Nat) (hacc : acc < U16MOD) :
    offset_of_list (merge_gap_runs l) id acc = offset_of_list l id acc := by
  induction l using merge_gap_runs.induct generalizing acc with
  | case1 => simp [merge_gap_runs]
  | case2 i s rest ih =>
    simp only [merge_gap_runs, offset_of_list]
    by_cases h : (Block.Full i s : Block Id).has_id id = true
    · simp [h]
    · simp only [Bool.not_eq_true] at h
      simp [h, ih _ (u16_mod_lt _)]
  | case3 s rest ih =>
    simp only [merge_gap_runs, offset_of_list, Block.has_id,
      Bool.false_eq_true, if_neg, Block.size]
    rw [ih _ (u16_mod_lt _),
      offset_of_list_drop_gap_run rest id ((acc + s) % U16MOD) (u16_mod_lt _)]
    have harg : (acc + (s + gap_run_size rest) % U16MOD) % U16MOD
        = ((acc + s) % U16MOD + gap_run_size rest) % U16MOD := by
      simp only [U16MOD]
      omega
    rw [harg]

/-- `offset_of` is unchanged by `cleanup`. -/
theorem offset_of_list_cleanup [DecidableEq Id] (l : List (Block Id)) (id : Id)
    (acc : Nat) (hacc : acc < U16MOD) :
    offset_of_list (cleanup_list l) id acc = offset_of_list l id acc := by
  rw [cleanup_list_eq_merge]
  exact offset_of_list_merge l id acc hacc

theorem filter_fulls_drop_gap_run (l : List (Block Id)) :
    (drop_gap_run l).filter (fun b => !b.isGap) = l.filter fun b => !b.isGap := by
  induction l with
  | nil => rfl
  | cons b rest ih =>
    cases b with
    | Gap s =>
      have h1 : drop_gap_run (Block.Gap s :: rest) = drop_gap_run rest := rfl
      have hp : (!(Block.Gap s : Block Id).isGap) = false := rfl
      rw [h1, ih, List.filter_cons, hp]
      simp
    | Full i s => simp [drop_gap_run]

/-- `cleanup` keeps exactly the `Full` entries, in order. -/
theorem filter_fulls_merge (l : List (Block Id)) :
    (merge_gap_runs l).filter (fun b => !b.isGap) = l.filter fun b => !b.isGap := by
  induction l using merge_gap_runs.induct with
  | case1 => simp [merge_gap_runs]
  | case2 i s rest ih =>
    have hp : (!(Block.Full i s : Block Id).isGap) = true := rfl
    simp only [merge_gap_runs, List.filter_cons, hp]
    simp [ih]
  | case3 s rest ih =>
    have hp1 : (!(Block.Gap ((s + gap_run_size rest) % U16MOD) : Block Id).isGap)
        = false := rfl
    have hp2 : (!(Block.Gap s : Block Id).isGap) = false := rfl
    simp only [merge_gap_runs, List.filter_cons, hp1, hp2]
    simp only [Bool.false_eq_true, if_false]
    rw [ih, filter_fulls_drop_gap_run]

theorem gap_run_nat_le_totalNat (l : List (Block Id)) :
    gap_run_nat l ≤ totalNat l := by
  induction l with
  | nil => simp [gap_run_nat, totalNat]
  | cons b rest ih =>
    cases b with
    | Gap s => simp [gap_run_nat, totalNat, Block.size] at ih ⊢; omega
    | Full i s => simp [gap_run_nat, totalNat]

theorem totalNat_drop_gap_run (l : List (Block Id)) :
    totalNat l = gap_run_nat l + totalNat (drop_gap_run l) := by
  induction l with
  | nil => simp [gap_run_nat, totalNat, drop_gap_run]
  | cons b rest ih =>
    cases b with
    | Gap s =>
      simp [gap_run_nat, totalNat, drop_gap_run, Block.size] at ih ⊢
      omega
    | Full i s => simp [gap_run_nat, drop_gap_run]

theorem gap_run_size_eq_nat (l : List (Block Id)) (h : gap_run_nat l < U16MOD) :
    gap_run_size l = gap_run_nat l := by
  induction l with
  | nil => rfl
  | cons b rest ih =>
    cases b with
    | Gap s =>
      simp only [gap_run_nat] at h
      simp only [gap_run_size, gap_run_nat, ih (by omega)]
      exact Nat.mod_eq_of_lt h
    | Full i s => rfl

theorem totalNat_drop_le (l : List (Block Id)) :
    totalNat (drop_gap_run l) ≤ totalNat l := by
  rw [totalNat_drop_gap_run l]
  omega

/-- `cleanup` preserves the total filled extent, when it fits in a `u16`. -/
theorem totalNat_merge (l : List (Block Id)) (h : totalNat l < U16MOD) :
    totalNat (merge_gap_runs l) = totalNat l := by
  induction l using merge_gap_runs.induct with
  | case1 => simp [merge_gap_runs]
  | case2 i s rest ih =>
    simp only [totalNat, List.map_cons, List.sum_cons] at h ⊢
    simp only [merge_gap_runs, List.map_cons, List.sum_cons, Block.size]
    have := ih (by simp only [totalNat] at *; omega)
    simp only [totalNat] at this
    omega
  | case3 s rest ih =>
    have hrun : gap_run_nat rest ≤ totalNat rest := gap_run_nat_le_totalNat rest
    have htot : totalNat (Block.Gap s :: rest) = s + totalNat rest := by
      simp [totalNat, Block.size]
    have hdrop := totalNat_drop_gap_run rest
    have hih := ih (lt_of_le_of_lt (totalNat_drop_le rest) (by omega))
    have hrs : gap_run_size rest = gap_run_nat rest :=
      gap_run_size_eq_nat rest (by omega)
    simp only [merge_gap_runs, totalNat, List.map_cons, List.sum_cons,
      Block.size] at hih ⊢
    rw [hrs, Nat.mod_eq_of_lt (by omega)]
    simp only [totalNat] at hdrop htot ⊢
    omega

theorem totalNat_cleanup (l : List (Block Id)) (h : totalNat l < U16MOD) :
    totalNat (cleanup_list l) = totalNat l := by
  rw [cleanup_list_eq_merge]
  exact totalNat_merge l h

theorem sum_from_eq (l : List (Block Id)) (acc : Nat) (hacc : acc < U16MOD) :
    l.foldl (fun a b => (a + b.size) % U16MOD) acc = (acc + totalNat l) % U16MOD := by
  induction l generalizing acc with
  | nil => simp [totalNat, Nat.mod_eq_of_lt hacc]
  | cons b rest ih =>
    simp only [List.foldl_cons, totalNat, List.map_cons, List.sum_cons]
    rw [ih _ (u16_mod_lt _)]
    simp only [totalNat, U16MOD]
    omega

theorem sum_u16_eq (l : List (Block Id)) : sum_u16 l = totalNat l % U16MOD := by
  simpa using sum_from_eq l 0 (by simp [U16MOD])

theorem sum_u16_eq_of_lt (l : List (Block Id)) (h : totalNat l < U16MOD) :
    sum_u16 l = totalNat l := by
  rw [sum_u16_eq]
  exact Nat.mod_eq_of_lt h

theorem size_le_totalNat (l : List (Block Id)) (b : Block Id) (hb : b ∈ l) :
    b.size ≤ totalNat l :=
  List.single_le_sum (fun _ _ => Nat.zero_le _) _ (List.mem_map_of_mem _ hb)

theorem totalNat_nil : totalNat ([] : List (Block Id)) = 0 := rfl

theorem totalNat_cons (b : Block Id) (l : List (Block Id)) :
    totalNat (b :: l) = b.size + totalNat l := by
  simp [totalNat]

theorem totalNat_append (l₁ l₂ : List (Block Id)) :
    totalNat (l₁ ++ l₂) = totalNat l₁ + totalNat l₂ := by
  simp [totalNat]

/-! ## Lemmas: locating the first fitting gap -/

theorem first_gap_of_size_some (l : List (Block Id)) (size i g : Nat)
    (h : first_gap_of_size l size = some (i, g)) :
    size ≤ g ∧ ∃ l₁ l₂, l = l₁ ++ .Gap g :: l₂ ∧ i = l₁.length ∧
      ∀ b ∈ l₁, b.isGap = true → b.size < size := by
  induction l generalizing i with
  | nil => simp [first_gap_of_size] at h
  | cons b rest ih =>
    cases b with
    | Gap s =>
      by_cases hs : size ≤ s
      · simp only [first_gap_of_size, if_pos hs, Option.some_inj, Prod.mk.injEq] at h
        obtain ⟨rfl, rfl⟩ := h
        exact ⟨hs, [], rest, by simp, rfl, by simp⟩
      · simp only [first_gap_of_size, if_neg hs, Option.map_eq_some'] at h
        obtain ⟨⟨i', g'⟩, hp, heq⟩ := h
        simp only [Prod.mk.injEq] at heq
        obtain ⟨rfl, rfl⟩ := heq
        obtain ⟨hg, l₁, l₂, rfl, rfl, hpre⟩ := ih i' hp
        refine ⟨hg, .Gap s :: l₁, l₂, rfl, by simp, ?_⟩
        intro b hb hbg
        simp only [List.mem_cons] at hb
        rcases hb with rfl | hb
        · simpa [Block.size] using Nat.lt_of_not_le hs
        · exact hpre b hb hbg
    | Full i' s =>
      simp only [first_gap_of_size, Option.map_eq_some'] at h
      obtain ⟨⟨i'', g'⟩, hp, heq⟩ := h
      simp only [Prod.mk.injEq] at heq
      obtain ⟨rfl, rfl⟩ := heq
      obtain ⟨hg, l₁, l₂, rfl, rfl, hpre⟩ := ih i'' hp
      refine ⟨hg, .Full i' s :: l₁, l₂, rfl, by simp, ?_⟩
      intro b hb hbg
      simp only [List.mem_cons] at hb
      rcases hb with rfl | hb
      · simp [Block.isGap] at hbg
      · exact hpre b hb hbg

theorem first_gap_of_size_none (l : List (Block Id)) (size : Nat)
    (h : first_gap_of_size l size = none) :
    ∀ b ∈ l, b.isGap = true → b.size < size := by
  induction l with
  | nil => simp
  | cons b rest ih =>
    cases b with
    | Gap s =>
      by_cases hs : size ≤ s
      · simp [first_gap_of_size, hs] at h
      · simp only [first_gap_of_size, if_neg hs, Option.map_eq_none'] at h
        intro b hb hbg
        simp only [List.mem_cons] at hb
        rcases hb with rfl | hb
        · simpa [Block.size] using Nat.lt_of_not_le hs
        · exact ih h b hb hbg
    | Full i s =>
      simp only [first_gap_of_size, Option.map_eq_none'] at h
      intro b hb hbg
      simp only [List.mem_cons] at hb
      rcases hb with rfl | hb
      · simp [Block.isGap] at hbg
      · exact ih h b hb hbg

/-! ## Lemmas: `offset_of` values -/

theorem offset_of_list_none_iff [DecidableEq Id] (l : List (Block Id)) (id : Id)
    (acc : Nat) :
    offset_of_list l id acc = none ↔ ∀ b ∈ l, b.has_id id = false := by
  induction l generalizing acc with
  | nil => simp [offset_of_list]
  | cons b rest ih =>
    by_cases hb : b.has_id id = true
    · simp [offset_of_list, hb]
    · simp only [Bool.not_eq_true] at hb
      simp [offset_of_list, hb, ih]

theorem offset_of_list_append_full [DecidableEq Id] (l₁ l₂ : List (Block Id))
    (id : Id) (sz acc : Nat) (h : ∀ b ∈ l₁, b.has_id id = false) :
    offset_of_list (l₁ ++ .Full id sz :: l₂) id acc =
      some (l₁.foldl (fun a b => (a + b.size) % U16MOD) acc) := by
  induction l₁ generalizing acc with
  | nil => simp [offset_of_list, Block.has_id]
  | cons b t ih =>
    have hb : b.has_id id = false := h b (by simp)
    simp only [List.cons_append, offset_of_list, hb, Bool.false_eq_true,
      if_neg, List.foldl_cons]
    exact ih _ fun x hx => h x (by simp [hx])

/-! ## Lemmas: list surgery at the split index -/

theorem set_append_len (l₁ l₂ : List (Block Id)) (b b' : Block Id) :
    (l₁ ++ b :: l₂).set l₁.length b' = l₁ ++ b' :: l₂ := by
  induction l₁ with
  | nil => rfl
  | cons a t ih => simp [List.set, ih]

theorem insertIdx_append_len (l₁ l₂ : List (Block Id)) (b x : Block Id) :
    (l₁ ++ b :: l₂).insertIdx (l₁.length + 1) x = l₁ ++ b :: x :: l₂ := by
  induction l₁ with
  | nil => simp [List.insertIdx_succ_cons, List.insertIdx_zero]
  | cons a t ih => simpa [List.insertIdx_succ_cons] using ih

theorem gapClean_split (l₁ l₂ : List (Block Id)) (g sz x : Nat) (id : Id)
    (h : GapClean (l₁ ++ .Gap g :: l₂)) :
    GapClean (l₁ ++ .Full id sz :: .Gap x :: l₂) := by
  unfold GapClean at *
  rw [List.chain'_append] at h ⊢
  obtain ⟨h₁, h₂, hb⟩ := h
  rw [List.chain'_cons'] at h₂
  refine ⟨h₁, ?_, ?_⟩
  · rw [List.chain'_cons, List.chain'_cons']
    refine ⟨.inl rfl, fun y hy => .inr ?_, h₂.2⟩
    rcases h₂.1 y hy with hc | hc
    · simp [Block.isGap] at hc
    · exact hc
  · intro a _ y hy
    simp only [List.head?_cons, Option.mem_def, Option.some_inj] at hy
    subst hy
    exact .inr rfl

theorem cleanup_list_of_gapClean (l : List (Block Id)) (h : GapClean l) :
    cleanup_list l = reduce_gaps l := by
  rw [cleanup_list_eq_merge]
  exact merge_gap_runs_of_gapClean l h

theorem cleanup_list_id (l : List (Block Id)) (h : GapClean l)
    (hs : ∀ b ∈ l, b.size < U16MOD) : cleanup_list l = l := by
  rw [cleanup_list_of_gapClean l h]
  exact reduce_gaps_id l hs

theorem sum_from_reduce_gaps (l : List (Block Id)) (acc : Nat) :
    (reduce_gaps l).foldl (fun a b => (a + b.size) % U16MOD) acc =
      l.foldl (fun a b => (a + b.size) % U16MOD) acc := by
  induction l generalizing acc with
  | nil => rfl
  | cons b rest ih =>
    cases b with
    | Gap g =>
      simp only [reduce_gaps, List.map_cons, List.foldl_cons, Block.size] at ih ⊢
      rw [u16_add_mod_right, ih]
    | Full i g =>
      simp only [reduce_gaps, List.map_cons, List.foldl_cons, Block.size] at ih ⊢
      rw [ih]

theorem sum_u16_reduce_gaps (l : List (Block Id)) :
    sum_u16 (reduce_gaps l) = sum_u16 l :=
  sum_from_reduce_gaps l 0

theorem take_reduce_gaps_append (l₁ l₂ : List (Block Id)) :
    (reduce_gaps (l₁ ++ l₂)).take l₁.length = reduce_gaps l₁ := by
  unfold reduce_gaps
  rw [List.map_append]
  exact List.take_left' (by simp)

/-! ## Lemmas: unfolding `replace_gap` and `insert_sized` case by case -/

theorem replace_gap_split [DecidableEq Id] (s : Blocks Id) (id : Id)
    (size i g : Nat) (hgap : first_gap_of_size s.blocks size = some (i, g))
    (hlt : size < g) (hlen : s.blocks.length ≠ s.max_blocks) :
    s.replace_gap id size =
      ({ s with blocks :=
          (cleanup_list ((s.blocks.set i (.Full id size)).insertIdx (i + 1)
            (.Gap (g - size)))) }, some i) := by
  unfold Blocks.replace_gap
  rw [hgap]
  simp [hlt, hlen]

theorem replace_gap_exact [DecidableEq Id] (s : Blocks Id) (id : Id)
    (size i g : Nat) (hgap : first_gap_of_size s.blocks size = some (i, g))
    (hlt : ¬ size < g) :
    s.replace_gap id size =
      ({ s with blocks := s.blocks.set i (.Full id size) }, some i) := by
  unfold Blocks.replace_gap
  rw [hgap]
  simp [hlt]

theorem replace_gap_append [DecidableEq Id] (s : Blocks Id) (id : Id)
    (size : Nat) (hgap : first_gap_of_size s.blocks size = none)
    (hlen : s.blocks.length ≠ s.max_blocks) :
    s.replace_gap id size =
      ({ s with blocks := s.blocks ++ [.Full id size] }, some s.blocks.length) := by
  unfold Blocks.replace_gap
  rw [hgap]
  simp [hlen]

theorem insert_sized_of_found [DecidableEq Id] (s : Blocks Id) (id : Id)
    (size off : Nat) (h : s.offset_of id = some off) :
    s.insert_sized id size = (s, some off) := by
  unfold Blocks.insert_sized
  rw [h]

theorem insert_sized_eq_of_replace [DecidableEq Id] (s s' : Blocks Id)
    (id : Id) (size i : Nat) (hnone : s.offset_of id = none)
    (hrep : s.replace_gap id size = (s', some i)) :
    s.insert_sized id size =
      (s', if (sum_u16 (s'.blocks.take i) + size) % U16MOD ≤ s'.full_size
           then some (sum_u16 (s'.blocks.take i)) else none) := by
  unfold Blocks.insert_sized
  rw [hnone, hrep]

theorem insert_sized_none_of_replace [DecidableEq Id] (s s' : Blocks Id)
    (id : Id) (size : Nat) (hnone : s.offset_of id = none)
    (hrep : s.replace_gap id size = (s', none)) :
    s.insert_sized id size = (s', none) := by
  unfold Blocks.insert_sized
  rw [hnone, hrep]

/-- After a successful `insert_sized`, `offset_of` the inserted id returns
exactly the offset `insert_sized` returned. -/
theorem insert_offset_of_after [DecidableEq Id] (s : Blocks Id) (id : Id)
    (size off : Nat) (hclean : GapClean s.blocks)
    (hsucc : (s.insert_sized id size).2 = some off) :
    (s.insert_sized id size).1.offset_of id = some off := by
  cases hof : s.offset_of id with
  | some off' =>
    rw [insert_sized_of_found s id size off' hof] at hsucc ⊢
    have : off' = off := by simpa using hsucc
    subst this
    simpa using hof
  | none =>
    have hnotin : ∀ b ∈ s.blocks, b.has_id id = false :=
      (offset_of_list_none_iff s.blocks id 0).mp hof
    cases hgap : first_gap_of_size s.blocks size with
    | some p =>
      obtain ⟨i, g⟩ := p
      obtain ⟨hg, l₁, l₂, hdec, hi, -⟩ :=
        first_gap_of_size_some s.blocks size i g hgap
      have hl₁ : ∀ b ∈ l₁, b.has_id id = false := fun b hb =>
        hnotin b (by rw [hdec]; simp [hb])
      by_cases hlt : size < g
      · by_cases hlen : s.blocks.length = s.max_blocks
        · have hrep : s.replace_gap id size =
              ({ s with blocks := s.blocks.set i (.Full id size) }, none) := by
            unfold Blocks.replace_gap
            rw [hgap]
            simp [hlt, hlen]
          rw [insert_sized_none_of_replace s _ id size hof hrep] at hsucc
          simp at hsucc
        · rw [insert_sized_eq_of_replace s _ id size i hof
            (replace_gap_split s id size i g hgap hlt hlen)] at hsucc ⊢
          have hLdec : (s.blocks.set i (.Full id size)).insertIdx (i + 1)
              (.Gap (g - size)) = l₁ ++ .Full id size :: .Gap (g - size) :: l₂ := by
            rw [hdec, hi, set_append_len, insertIdx_append_len]
          rw [hLdec] at hsucc ⊢
          have hcleanL : GapClean (l₁ ++ .Full id size :: .Gap (g - size) :: l₂) :=
            gapClean_split l₁ l₂ g size (g - size) id (hdec ▸ hclean)
          have hred := cleanup_list_of_gapClean _ hcleanL
          simp only [hred] at hsucc ⊢
          have htake : (reduce_gaps (l₁ ++ .Full id size :: .Gap (g - size) :: l₂)).take i
              = reduce_gaps l₁ := by
            rw [hi]
            exact take_reduce_gaps_append l₁ _
          rw [htake, sum_u16_reduce_gaps] at hsucc
          have hoff : off = sum_u16 l₁ := by
            by_cases hc : (sum_u16 l₁ + size) % U16MOD ≤ s.full_size
            · simp [hc] at hsucc
              omega
            · simp [hc] at hsucc
          subst hoff
          simp only [Blocks.offset_of]
          rw [← hred, offset_of_list_cleanup _ id 0 (by simp [U16MOD])]
          exact offset_of_list_append_full l₁ _ id size 0 hl₁
      · rw [insert_sized_eq_of_replace s _ id size i hof
          (replace_gap_exact s id size i g hgap hlt)] at hsucc ⊢
        have hdec2 : s.blocks.set i (.Full id size) = l₁ ++ .Full id size :: l₂ := by
          rw [hdec, hi]
          exact set_append_len l₁ l₂ _ _
        rw [hdec2] at hsucc ⊢
        have htake : (l₁ ++ (.Full id size : Block Id) :: l₂).take i = l₁ := by
          rw [hi]
          exact List.take_left' rfl
        rw [htake] at hsucc
        have hoff : off = sum_u16 l₁ := by
          by_cases hc : (sum_u16 l₁ + size) % U16MOD ≤ s.full_size
          · simp [hc] at hsucc
            omega
          · simp [hc] at hsucc
        subst hoff
        simp only [Blocks.offset_of]
        exact offset_of_list_append_full l₁ _ id size 0 hl₁
    | none =>
      by_cases hlen : s.blocks.length = s.max_blocks
      · have hrep : s.replace_gap id size = (s, none) := by
          unfold Blocks.replace_gap
          rw [hgap]
          simp [hlen]
        rw [insert_sized_none_of_replace s s id size hof hrep] at hsucc
        simp at hsucc
      · rw [insert_sized_eq_of_replace s _ id size _ hof
          (replace_gap_append s id size hgap hlen)] at hsucc ⊢
        have htake : (s.blocks ++ [(.Full id size : Block Id)]).take s.blocks.length
            = s.blocks := List.take_left' rfl
        rw [htake] at hsucc
        have hoff : off = sum_u16 s.blocks := by
          by_cases hc : (sum_u16 s.blocks + size) % U16MOD ≤ s.full_size
          · simp [hc] at hsucc
            omega
          · simp [hc] at hsucc
        subst hoff
        simp only [Blocks.offset_of]
        exact offset_of_list_append_full s.blocks [] id size 0 hnotin

/-! ## Lemmas: the filled extent along call sequences -/

theorem replace_gap_shape [DecidableEq Id] (s : Blocks Id) (id : Id) (sz : Nat) :
    (s.replace_gap id sz).1.full_size = s.full_size ∧
      (s.replace_gap id sz).1.max_blocks = s.max_blocks := by
  unfold Blocks.replace_gap
  rcases first_gap_of_size s.blocks sz with _ | ⟨i, g⟩
  · dsimp only
    split <;> exact ⟨rfl, rfl⟩
  · dsimp only
    split
    · split <;> exact ⟨rfl, rfl⟩
    · exact ⟨rfl, rfl⟩

theorem insert_sized_shape [DecidableEq Id] (s : Blocks Id) (id : Id) (sz : Nat) :
    (s.insert_sized id sz).1.full_size = s.full_size ∧
      (s.insert_sized id sz).1.max_blocks = s.max_blocks := by
  unfold Blocks.insert_sized
  rcases s.offset_of id with _ | off
  · dsimp only
    rcases hrep : s.replace_gap id sz with ⟨s', r⟩
    have := replace_gap_shape s id sz
    rw [hrep] at this
    rcases r with _ | i <;> exact this
  · exact ⟨rfl, rfl⟩

theorem remove_shape [DecidableEq Id] (s : Blocks Id) (id : Id) :
    (s.remove id).1.full_size = s.full_size ∧
      (s.remove id).1.max_blocks = s.max_blocks := by
  unfold Blocks.remove
  split <;> exact ⟨rfl, rfl⟩

theorem replace_id_shape [DecidableEq Id] (s : Blocks Id) (old new : Id) (sz : Nat) :
    (s.replace_id old new sz).1.full_size = s.full_size ∧
      (s.replace_id old new sz).1.max_blocks = s.max_blocks := by
  unfold Blocks.replace_id
  rcases replace_id_list s.blocks old new sz 0 with _ | ⟨l, off⟩ <;>
    exact ⟨rfl, rfl⟩

theorem run_op_shape (s : Blocks Nat) (op : AllocOp) :
    (run_op s op).full_size = s.full_size ∧
      (run_op s op).max_blocks = s.max_blocks := by
  cases op with
  | ins id sz => exact insert_sized_shape s id sz
  | rem id => exact remove_shape s id
  | rep old new sz => exact replace_id_shape s old new sz
  | clean => exact ⟨rfl, rfl⟩

theorem totalNat_mark_first_gap [DecidableEq Id] (id : Id) (l : List (Block Id)) :
    totalNat (mark_first_gap id l) = totalNat l := by
  induction l with
  | nil => rfl
  | cons b rest ih =>
    by_cases h : b.has_id id = true
    · simp [mark_first_gap, h, totalNat_cons, Block.size]
    · simp only [Bool.not_eq_true] at h
      simp [mark_first_gap, h, totalNat_cons, ih]

theorem totalNat_replace_id_list [DecidableEq Id] (l : List (Block Id))
    (old new : Id) (sz acc : Nat) (l' : List (Block Id)) (off : Nat)
    (h : replace_id_list l old new sz acc = some (l', off)) :
    totalNat l' = totalNat l := by
  induction l generalizing acc l' with
  | nil => simp [replace_id_list] at h
  | cons b rest ih =>
    by_cases hb : b = Block.Full old sz
    · simp only [replace_id_list, if_pos hb, Option.some_inj] at h
      obtain ⟨rfl, rfl⟩ : Block.Full new sz :: rest = l' ∧ acc = off := by
        exact ⟨congrArg Prod.fst h, congrArg Prod.snd h⟩
      rw [hb]
      simp [totalNat_cons, Block.size]
    · simp only [replace_id_list, if_neg hb, Option.map_eq_some'] at h
      obtain ⟨⟨l'', off'⟩, hp, heq⟩ := h
      simp only [Prod.mk.injEq] at heq
      obtain ⟨rfl, rfl⟩ := heq
      simp [totalNat_cons, ih _ _ hp]

theorem remove_totalNat (s : Blocks Nat) (id : Nat)
    (h : totalNat s.blocks < U16MOD) :
    totalNat (s.remove id).1.blocks = totalNat s.blocks := by
  unfold Blocks.remove
  split
  · dsimp only
    rw [totalNat_cleanup _ (by rw [totalNat_mark_first_gap]; exact h),
      totalNat_mark_first_gap]
  · rfl

theorem replace_id_totalNat (s : Blocks Nat) (old new sz : Nat) :
    totalNat (s.replace_id old new sz).1.blocks = totalNat s.blocks := by
  unfold Blocks.replace_id
  rcases hrep : replace_id_list s.blocks old new sz 0 with _ | ⟨l', off⟩
  · rfl
  · dsimp only
    exact totalNat_replace_id_list s.blocks old new sz 0 l' off hrep

/-- One successful `insert_sized` keeps the filled extent within
`full_size`, and grows it by at most `size`. -/
theorem insert_sized_totalNat (s : Blocks Nat) (id sz : Nat)
    (hts : totalNat s.blocks ≤ s.full_size)
    (hsm : totalNat s.blocks + sz < U16MOD)
    (hok : ((s.insert_sized id sz).2).isSome = true) :
    totalNat (s.insert_sized id sz).1.blocks ≤ s.full_size ∧
      totalNat (s.insert_sized id sz).1.blocks ≤ totalNat s.blocks + sz := by
  cases hof : s.offset_of id with
  | some off =>
    rw [insert_sized_of_found s id sz off hof]
    dsimp only
    exact ⟨hts, by omega⟩
  | none =>
    cases hgap : first_gap_of_size s.blocks sz with
    | some p =>
      obtain ⟨i, g⟩ := p
      obtain ⟨hg, l₁, l₂, hdec, hi, -⟩ :=
        first_gap_of_size_some s.blocks sz i g hgap
      have htotdec : totalNat s.blocks = totalNat l₁ + g + totalNat l₂ := by
        rw [hdec, totalNat_append, totalNat_cons]
        simp only [Block.size]
        omega
      by_cases hlt : sz < g
      · by_cases hlen : s.blocks.length = s.max_blocks
        · have hrep : s.replace_gap id sz =
              ({ s with blocks := s.blocks.set i (.Full id sz) }, none) := by
            unfold Blocks.replace_gap
            rw [hgap]
            simp [hlt, hlen]
          rw [insert_sized_none_of_replace s _ id sz hof hrep] at hok
          simp at hok
        · rw [insert_sized_eq_of_replace s _ id sz i hof
            (replace_gap_split s id sz i g hgap hlt hlen)]
          dsimp only
          have hLdec : (s.blocks.set i (.Full id sz)).insertIdx (i + 1)
              (.Gap (g - sz)) = l₁ ++ .Full id sz :: .Gap (g - sz) :: l₂ := by
            rw [hdec, hi, set_append_len, insertIdx_append_len]
          rw [hLdec]
          have htotL : totalNat (l₁ ++ .Full id sz :: .Gap (g - sz) :: l₂)
              = totalNat s.blocks := by
            rw [totalNat_append, totalNat_cons, totalNat_cons]
            simp only [Block.size]
            omega
          rw [totalNat_cleanup _ (by omega), htotL]
          exact ⟨hts, by omega⟩
      · rw [insert_sized_eq_of_replace s _ id sz i hof
          (replace_gap_exact s id sz i g hgap hlt)]
        dsimp only
        have hdec2 : s.blocks.set i (.Full id sz) = l₁ ++ .Full id sz :: l₂ := by
          rw [hdec, hi]
          exact set_append_len l₁ l₂ _ _
        rw [hdec2, totalNat_append, totalNat_cons]
        simp only [Block.size]
        constructor <;> omega
    | none =>
      by_cases hlen : s.blocks.length = s.max_blocks
      · have hrep : s.replace_gap id sz = (s, none) := by
          unfold Blocks.replace_gap
          rw [hgap]
          simp [hlen]
        rw [insert_sized_none_of_replace s s id sz hof hrep] at hok
        simp at hok
      · rw [insert_sized_eq_of_replace s _ id sz _ hof
          (replace_gap_append s id sz hgap hlen)] at hok ⊢
        dsimp only at hok ⊢
        have htake : (s.blocks ++ [(.Full id sz : Block Nat)]).take s.blocks.length
            = s.blocks := List.take_left' rfl
        rw [htake, sum_u16_eq_of_lt s.blocks (by omega),
          Nat.mod_eq_of_lt (by omega)] at hok
        have hcond : totalNat s.blocks + sz ≤ s.full_size := by
          by_contra hc
          rw [if_neg (by omega)] at hok
          simp at hok
        rw [totalNat_append, totalNat_cons, totalNat_nil]
        simp only [Block.size]
        constructor <;> omega

/-- The filled extent stays within `full_size` along any call sequence in
which every `insert_sized` succeeds (no `u16` overflow). -/
theorem run_ops_invariant (ops : List AllocOp) :
    ∀ (s : Blocks Nat),
      totalNat s.blocks ≤ s.full_size →
      totalNat s.blocks + ins_total ops < U16MOD →
      inserts_ok s ops = true →
      totalNat (run_ops s ops).blocks ≤ (run_ops s ops).full_size ∧
        (run_ops s ops).full_size = s.full_size := by
  induction ops with
  | nil =>
    intro s hts _ _
    exact ⟨hts, rfl⟩
  | cons op rest ih =>
    intro s hts hsm hok
    have hrun : run_ops s (op :: rest) = run_ops (run_op s op) rest := rfl
    simp only [inserts_ok, Bool.and_eq_true] at hok
    have hfse := run_op_shape s op
    have hstep : totalNat (run_op s op).blocks ≤ s.full_size ∧
        totalNat (run_op s op).blocks ≤ totalNat s.blocks + ins_total [op] := by
      cases op with
      | ins id sz =>
        have h := insert_sized_totalNat s id sz hts
          (by simp only [ins_total] at hsm ⊢; omega) hok.1
        simpa [run_op, ins_total] using h
      | rem id =>
        rw [show run_op s (.rem id) = (s.remove id).1 from rfl,
          remove_totalNat s id (by omega)]
        exact ⟨hts, by simp [ins_total]⟩
      | rep old new sz =>
        rw [show run_op s (.rep old new sz) = (s.replace_id old new sz).1 from rfl,
          replace_id_totalNat s old new sz]
        exact ⟨hts, by simp [ins_total]⟩
      | clean =>
        rw [show run_op s .clean = s.cleanup from rfl]
        have : totalNat s.cleanup.blocks = totalNat s.blocks := by
          exact totalNat_cleanup _ (by omega)
        rw [this]
        exact ⟨hts, by simp [ins_total]⟩
    have hih := ih (run_op s op)
      (by rw [hfse.1]; exact hstep.1)
      (by
        have : ins_total (op :: rest) = ins_total [op] + ins_total rest := by
          cases op <;> simp [ins_total]
        omega)
      hok.2
    rw [hrun]
    exact ⟨hih.1, hih.2.trans hfse.1⟩

/-! ## Claim theorems for the span allocator -/

/-- C1: with `id` not yet present, `insert_sized` allocates in the first
gap of size at least `size` (scanning in ascending offset order): a
strictly larger gap is split with the `Full` entry taking its front and a
`Gap` of the remainder immediately following; an exact-fit gap is
converted in place; with no fitting gap the entry is appended after all
existing entries, the returned offset being the sum of the sizes of the
entries preceding it — and in the fat-block scenario
(insert 1,1 / 2,1 / 3,8; remove 2; insert size 3) the offset is 10. -/
theorem C1_insert_first_fit :
    (∀ (s : Blocks Nat) (id size i g : Nat),
      s.offset_of id = none → GapClean s.blocks →
      s.blocks.length < s.max_blocks →
      totalNat s.blocks ≤ s.full_size → s.full_size + size < U16MOD →
      first_gap_of_size s.blocks size = some (i, g) →
      (size < g →
        (s.insert_sized id size).1.blocks
          = (s.blocks.set i (.Full id size)).insertIdx (i + 1) (.Gap (g - size)) ∧
        (s.insert_sized id size).2 = some (totalNat (s.blocks.take i))) ∧
      (¬ size < g →
        g = size ∧
        (s.insert_sized id size).1.blocks = s.blocks.set i (.Full id size) ∧
        (s.insert_sized id size).2 = some (totalNat (s.blocks.take i)))) ∧
    (∀ (s : Blocks Nat) (id size : Nat),
      s.offset_of id = none →
      s.blocks.length < s.max_blocks →
      totalNat s.blocks ≤ s.full_size → s.full_size + size < U16MOD →
      first_gap_of_size s.blocks size = none →
      (s.insert_sized id size).1.blocks = s.blocks ++ [.Full id size] ∧
      (s.insert_sized id size).2 =
        (if totalNat s.blocks + size ≤ s.full_size
         then some (totalNat s.blocks) else none)) ∧
    ((run_ops (Blocks.new 128 128)
        [.ins 1 1, .ins 2 1, .ins 3 8, .rem 2]).insert_sized 4 3).2 = some 10 := by
  refine ⟨?_, ?_, by decide⟩
  · intro s id size i g hof hclean hlen hts hfs hgap
    have hlen' : s.blocks.length ≠ s.max_blocks := Nat.ne_of_lt hlen
    obtain ⟨hg, l₁, l₂, hdec, hi, -⟩ :=
      first_gap_of_size_some s.blocks size i g hgap
    have htotdec : totalNat s.blocks = totalNat l₁ + g + totalNat l₂ := by
      rw [hdec, totalNat_append, totalNat_cons]
      simp only [Block.size]
      omega
    have htotl₁ : totalNat l₁ < U16MOD := by omega
    have htake : s.blocks.take i = l₁ := by
      rw [hdec, hi]
      exact List.take_left' rfl
    constructor
    · intro hlt
      rw [insert_sized_eq_of_replace s _ id size i hof
        (replace_gap_split s id size i g hgap hlt hlen')]
      have hLdec : (s.blocks.set i (.Full id size)).insertIdx (i + 1)
          (.Gap (g - size)) = l₁ ++ .Full id size :: .Gap (g - size) :: l₂ := by
        rw [hdec, hi, set_append_len, insertIdx_append_len]
      have hcleanL : GapClean (l₁ ++ .Full id size :: .Gap (g - size) :: l₂) :=
        gapClean_split l₁ l₂ g size (g - size) id (hdec ▸ hclean)
      have htotL : totalNat (l₁ ++ .Full id size :: .Gap (g - size) :: l₂)
          = totalNat s.blocks := by
        rw [totalNat_append, totalNat_cons, totalNat_cons]
        simp only [Block.size]
        omega
      have hsizes : ∀ b ∈ l₁ ++ .Full id size :: .Gap (g - size) :: l₂,
          b.size < U16MOD := by
        intro b hb
        have := size_le_totalNat _ b hb
        omega
      have hid : cleanup_list (l₁ ++ .Full id size :: .Gap (g - size) :: l₂)
          = l₁ ++ .Full id size :: .Gap (g - size) :: l₂ :=
        cleanup_list_id _ hcleanL hsizes
      rw [hLdec, hid]
      have htakeL : (l₁ ++ (.Full id size : Block Nat) :: .Gap (g - size) :: l₂).take i
          = l₁ := by
        rw [hi]
        exact List.take_left' rfl
      rw [htakeL, htake, sum_u16_eq_of_lt l₁ htotl₁]
      have hcond : (totalNat l₁ + size) % U16MOD ≤ s.full_size := by
        rw [Nat.mod_eq_of_lt (by omega)]
        omega
      rw [if_pos hcond]
      exact ⟨rfl, rfl⟩
    · intro hnlt
      have hgeq : g = size := by omega
      refine ⟨hgeq, ?_⟩
      rw [insert_sized_eq_of_replace s _ id size i hof
        (replace_gap_exact s id size i g hgap hnlt)]
      have hdec2 : s.blocks.set i (.Full id size) = l₁ ++ .Full id size :: l₂ := by
        rw [hdec, hi]
        exact set_append_len l₁ l₂ _ _
      have htake2 : (s.blocks.set i (.Full id size)).take i = l₁ := by
        rw [hdec2, hi]
        exact List.take_left' rfl
      rw [htake2, htake, sum_u16_eq_of_lt l₁ htotl₁]
      have hcond : (totalNat l₁ + size) % U16MOD ≤ s.full_size := by
        rw [Nat.mod_eq_of_lt (by omega)]
        omega
      rw [if_pos hcond]
      exact ⟨rfl, rfl⟩
  · intro s id size hof hlen hts hfs hgap
    have hlen' : s.blocks.length ≠ s.max_blocks := Nat.ne_of_lt hlen
    rw [insert_sized_eq_of_replace s _ id size _ hof
      (replace_gap_append s id size hgap hlen')]
    dsimp only
    have htake : (s.blocks ++ [(.Full id size : Block Nat)]).take s.blocks.length
        = s.blocks := List.take_left' rfl
    rw [htake, sum_u16_eq_of_lt s.blocks (by omega),
      Nat.mod_eq_of_lt (by omega)]
    exact ⟨rfl, rfl⟩

/-- C1 witness: the split branch at a concrete reachable state, and the
fat-block append scenario. -/
theorem C1_witness :
    ((run_ops (Blocks.new 128 128) [.ins 1 3, .ins 2 2, .rem 1]).insert_sized 3 2).2
        = some 0 ∧
    ((run_ops (Blocks.new 128 128)
        [.ins 1 1, .ins 2 1, .ins 3 8, .rem 2]).insert_sized 4 3).2 = some 10 := by
  refine ⟨?_, C1_insert_first_fit.2.2⟩
  have h := (C1_insert_first_fit.1 (run_ops (Blocks.new 128 128)
      [.ins 1 3, .ins 2 2, .rem 1]) 3 2 0 3 (by decide) (by decide) (by decide)
      (by decide) (by decide) (by decide)).1 (by decide)
  rw [h.2]
  decide

/-- C2: when `insert_sized` finds no fitting gap, appends, and the
resulting offset overruns `full_size`, it returns `none` but the appended
`Full` entry stays in the entry list (no rollback). -/
theorem C2_failed_append_keeps_entry :
    ∀ (s : Blocks Nat) (id size : Nat),
      s.offset_of id = none →
      first_gap_of_size s.blocks size = none →
      s.blocks.length < s.max_blocks →
      totalNat s.blocks + size < U16MOD →
      s.full_size < totalNat s.blocks + size →
      s.insert_sized id size
        = ({ s with blocks := s.blocks ++ [.Full id size] }, none) := by
  intro s id size hof hgap hlen hsm hover
  have hlen' : s.blocks.length ≠ s.max_blocks := Nat.ne_of_lt hlen
  rw [insert_sized_eq_of_replace s _ id size _ hof
    (replace_gap_append s id size hgap hlen')]
  dsimp only
  have htake : (s.blocks ++ [(.Full id size : Block Nat)]).take s.blocks.length
      = s.blocks := List.take_left' rfl
  rw [htake, sum_u16_eq_of_lt s.blocks (by omega),
    Nat.mod_eq_of_lt (by omega), if_neg (by omega)]

/-- C2 witness: inserting size 3 into a fresh allocator of capacity 2
returns `none` yet leaves the `Full` entry behind. -/
theorem C2_witness :
    (Blocks.new 4 2 : Blocks Nat).insert_sized 1 3
      = (⟨[.Full 1 3], 4, 2⟩, none) := by
  have h := C2_failed_append_keeps_entry (Blocks.new 4 2) 1 3 (by decide)
    (by decide) (by decide) (by decide) (by decide)
  rw [h]
  rfl

/-- C4: a successful `insert_sized` is idempotent — calling it again with
the same id and size returns the same offset and leaves the allocator
(entry list included) completely unchanged. -/
theorem C4_insert_idempotent :
    ∀ (s : Blocks Nat) (id size off : Nat),
      GapClean s.blocks →
      (s.insert_sized id size).2 = some off →
      (s.insert_sized id size).1.insert_sized id size
        = ((s.insert_sized id size).1, some off) := by
  intro s id size off hc hs
  exact insert_sized_of_found _ id size off (insert_offset_of_after s id size off hc hs)

/-! ## Lemmas: `Bitset128` -/

theorem and_two_pow_eq_zero_iff (v i : Nat) :
    v &&& 2 ^ i = 0 ↔ v.testBit i = false := by
  constructor
  · intro h
    have := congrArg (fun x => x.testBit i) h
    simpa [Nat.testBit_land, Nat.testBit_two_pow_self] using this
  · intro h
    apply Nat.eq_of_testBit_eq
    intro j
    rw [Nat.testBit_land, Nat.zero_testBit]
    by_cases hj : i = j
    · subst hj
      simp [h]
    · simp [Nat.testBit_two_pow_of_ne hj]

theorem trailing_ones_aux_testBit_self (fuel : Nat) :
    ∀ v, v < 2 ^ fuel → v.testBit (trailing_ones_aux fuel v) = false := by
  induction fuel with
  | zero =>
    intro v hv
    interval_cases v
    simp [trailing_ones_aux]
  | succ fuel ih =>
    intro v hv
    by_cases h : v % 2 = 1
    · rw [trailing_ones_aux, if_pos h, Nat.testBit_succ]
      exact ih (v / 2) (by rw [pow_succ] at hv; omega)
    · rw [trailing_ones_aux, if_neg h, Nat.testBit_zero]
      simp [h]

theorem trailing_ones_aux_testBit_lt (fuel : Nat) :
    ∀ v j, j < trailing_ones_aux fuel v → v.testBit j = true := by
  induction fuel with
  | zero =>
    intro v j hj
    simp [trailing_ones_aux] at hj
  | succ fuel ih =>
    intro v j hj
    by_cases h : v % 2 = 1
    · rw [trailing_ones_aux, if_pos h] at hj
      cases j with
      | zero => simp [Nat.testBit_zero, h]
      | succ j' =>
        rw [Nat.testBit_succ]
        exact ih (v / 2) j' (by omega)
    · rw [trailing_ones_aux, if_neg h] at hj
      omega

theorem two_pow_trailing_ones_aux_le (fuel : Nat) :
    ∀ v, 2 ^ trailing_ones_aux fuel v ≤ v + 1 := by
  induction fuel with
  | zero =>
    intro v
    simp [trailing_ones_aux]
  | succ fuel ih =>
    intro v
    by_cases h : v % 2 = 1
    · rw [trailing_ones_aux, if_pos h, pow_succ]
      have := ih (v / 2)
      omega
    · rw [trailing_ones_aux, if_neg h]
      simp

theorem trailing_ones_aux_two_pow_sub_one (n : Nat) :
    ∀ fuel, n ≤ fuel → trailing_ones_aux fuel (2 ^ n - 1) = n := by
  induction n with
  | zero =>
    intro fuel _
    cases fuel <;> simp [trailing_ones_aux]
  | succ n ih =>
    intro fuel hf
    obtain ⟨f, rfl⟩ : ∃ f, fuel = f + 1 := ⟨fuel - 1, by omega⟩
    have hp : 0 < 2 ^ n := Nat.pow_pos (by norm_num)
    have h2 : 2 ^ (n + 1) = 2 * 2 ^ n := by ring
    have hodd : (2 ^ (n + 1) - 1) % 2 = 1 := by omega
    have hdiv : (2 ^ (n + 1) - 1) / 2 = 2 ^ n - 1 := by omega
    rw [trailing_ones_aux, if_pos hodd, hdiv, ih f (by omega)]

theorem trailing_ones_le_128 (v : Nat) (hv : v < 2 ^ 128) :
    trailing_ones v ≤ 128 := by
  by_contra hc
  push_neg at hc
  have h1 := two_pow_trailing_ones_aux_le 128 v
  have h2 : 2 ^ 128 < 2 ^ trailing_ones v :=
    Nat.pow_lt_pow_right (by norm_num) hc
  unfold trailing_ones at hc h2
  omega

theorem trailing_ones_eq_128_iff (v : Nat) (hv : v < 2 ^ 128) :
    trailing_ones v = 128 ↔ v = 2 ^ 128 - 1 := by
  constructor
  · intro h
    have h1 := two_pow_trailing_ones_aux_le 128 v
    unfold trailing_ones at h
    rw [h] at h1
    omega
  · intro h
    subst h
    exact trailing_ones_aux_two_pow_sub_one 128 128 le_rfl

theorem first_free_none_iff (v : Nat) (hv : v < 2 ^ 128) :
    first_free v = none ↔ v = 2 ^ 128 - 1 := by
  simp only [first_free, INDEX_COUNT]
  constructor
  · intro h
    split at h
    · exact absurd h (by simp)
    · rename_i hge
      have := trailing_ones_le_128 v hv
      exact (trailing_ones_eq_128_iff v hv).mp (by omega)
  · intro h
    rw [if_neg]
    rw [(trailing_ones_eq_128_iff v hv).mpr h]
    omega

theorem first_free_some_spec (v i : Nat) (hv : v < 2 ^ 128)
    (h : first_free v = some i) :
    i < 128 ∧ v.testBit i = false ∧ ∀ j < i, v.testBit j = true := by
  simp only [first_free, INDEX_COUNT] at h
  split at h
  · rename_i hlt
    obtain rfl : trailing_ones v = i := by simpa using h
    exact ⟨hlt, trailing_ones_aux_testBit_self 128 v hv,
      fun j hj => trailing_ones_aux_testBit_lt 128 v j hj⟩
  · exact absurd h (by simp)

theorem reserve_testBit (v i : Nat) (hi : i < 128) :
    (reserve v i).2 = v.testBit i ∧
      ∀ j, (reserve v i).1.testBit j = (v.testBit j || decide (j = i)) := by
  unfold reserve
  rw [Nat.mod_eq_of_lt hi]
  constructor
  · cases htb : v.testBit i with
    | false => simp [(and_two_pow_eq_zero_iff v i).mpr htb]
    | true =>
      have : ¬ v &&& 2 ^ i = 0 := fun hz => by
        rw [(and_two_pow_eq_zero_iff v i).mp hz] at htb
        exact Bool.false_ne_true htb
      simp [this]
  · intro j
    rw [Nat.testBit_lor, Nat.testBit_two_pow]
    cases hj : decide (i = j) <;> cases hj' : decide (j = i) <;>
      simp_all [eq_comm]

theorem free_testBit (v i : Nat) (hi : i < 128) (hv : v < 2 ^ 128) :
    (free v i).2 = !(v.testBit i) ∧
      ∀ j, (free v i).1.testBit j = (v.testBit j && !decide (j = i)) := by
  unfold free
  rw [Nat.mod_eq_of_lt hi]
  constructor
  · cases htb : v.testBit i with
    | false => simp [(and_two_pow_eq_zero_iff v i).mpr htb]
    | true =>
      have : ¬ v &&& 2 ^ i = 0 := fun hz => by
        rw [(and_two_pow_eq_zero_iff v i).mp hz] at htb
        exact Bool.false_ne_true htb
      simp [this]
  · intro j
    rw [Nat.testBit_land, Nat.testBit_xor, Nat.testBit_two_pow_sub_one,
      Nat.testBit_two_pow]
    by_cases hj : j < 128
    · by_cases hij : j = i
      · subst hij
        simp [hj]
      · have hij' : ¬ i = j := fun h => hij h.symm
        simp [hj, hij, hij']
    · have hvb : v.testBit j = false :=
        Nat.testBit_lt_two_pow (lt_of_lt_of_le hv
          (Nat.pow_le_pow_right (by norm_num) (by omega)))
      simp [hvb]

theorem bit_run_lt (ops : List BitOp) : ∀ v, v < 2 ^ 128 → bit_run v ops < 2 ^ 128 := by
  induction ops with
  | nil => intro v hv; exact hv
  | cons op rest ih =>
    intro v hv
    cases op with
    | res i =>
      exact ih _ (Nat.or_lt_two_pow hv
        (Nat.pow_lt_pow_right (by norm_num) (Nat.mod_lt _ (by norm_num))))
    | fre i =>
      exact ih _ (lt_of_le_of_lt Nat.and_le_left hv)

/-- C3 counterexample: from `Blocks::new(2)`, the single call
`insert_sized(1, 3)` returns `none` but leaves a `Full` entry of size 3,
so the sum of the entry sizes (3) exceeds `full_size` (2) in a reachable
state. -/
theorem C3_counterexample :
    (run_ops (Blocks.new 4 2) [.ins 1 3]).full_size = 2 ∧
      totalNat (run_ops (Blocks.new 4 2) [.ins 1 3]).blocks = 3 ∧
      ¬ totalNat (run_ops (Blocks.new 4 2) [.ins 1 3]).blocks
          ≤ (run_ops (Blocks.new 4 2) [.ins 1 3]).full_size := by
  refine ⟨by decide, by decide, by decide⟩

/-- C3 (amended): in every state reachable from `Blocks::new(full_size)`
by `insert_sized`, `remove`, `replace_id` and `cleanup` calls, the sum of
the entry sizes is at most `full_size` — provided every `insert_sized`
call in the sequence returned `Some` (a failed insert is not rolled back)
and the total of the requested insert sizes stays below `2^16` (so the
`u16` capacity check cannot wrap). -/
theorem C3_amended_filled_extent :
    ∀ (ops : List AllocOp) (max_blocks full_size : Nat),
      ins_total ops < U16MOD →
      inserts_ok (Blocks.new max_blocks full_size) ops = true →
      totalNat (run_ops (Blocks.new max_blocks full_size) ops).blocks
        ≤ full_size := by
  intro ops max_blocks full_size hsm hok
  have h := run_ops_invariant ops (Blocks.new max_blocks full_size)
    (by simp [Blocks.new, totalNat]) (by simpa [Blocks.new, totalNat] using hsm) hok
  exact le_of_le_of_eq h.1 h.2

/-- C3 witness: a concrete all-successful sequence stays within capacity. -/
theorem C3_witness :
    totalNat (run_ops (Blocks.new 128 10) [.ins 1 3, .rem 1, .ins 2 2]).blocks
      ≤ 10 :=
  C3_amended_filled_extent [.ins 1 3, .rem 1, .ins 2 2] 128 10
    (by decide) (by decide)

/-- Why the no-overflow proviso in the amended C3 is needed: with `u16`
wrapping, two successful inserts can push the filled extent past
`full_size` (the capacity check `offset + size <= full_size` wraps). -/
theorem insert_u16_wrap_note :
    inserts_ok (Blocks.new 128 65535) [.ins 1 65535, .ins 2 1] = true ∧
      totalNat (run_ops (Blocks.new 128 65535) [.ins 1 65535, .ins 2 1]).blocks
        = 65536 := by
  refine ⟨by decide, by decide⟩

/-- C5: `cleanup` replaces every maximal run of adjacent `Gap` entries by
a single `Gap` sized as the (u16) sum of the run (`merge_gap_runs`),
keeps every `Full` entry and its offset unchanged, is idempotent, is
invoked automatically by `remove`, and in the scenario
insert 1,1 / 2,1 / 3,1; remove 2; remove 3; insert 4,1 the merged gap is
reused from its start at offset 1. -/
theorem C5_cleanup_merges_runs :
    (∀ l : List (Block Nat), cleanup_list l = merge_gap_runs l) ∧
    (∀ l : List (Block Nat),
      (cleanup_list l).filter (fun b => !b.isGap) = l.filter fun b => !b.isGap) ∧
    (∀ (l : List (Block Nat)) (id acc : Nat), acc < U16MOD →
      offset_of_list (cleanup_list l) id acc = offset_of_list l id acc) ∧
    (∀ l : List (Block Nat), cleanup_list (cleanup_list l) = cleanup_list l) ∧
    (∀ (s : Blocks Nat) (id : Nat),
      (s.remove id).1.blocks =
        (if s.blocks.any (Block.has_id id)
         then cleanup_list (mark_first_gap id s.blocks) else s.blocks)) ∧
    ((run_ops (Blocks.new 128 128)
        [.ins 1 1, .ins 2 1, .ins 3 1, .rem 2, .rem 3]).insert_sized 4 1).2
      = some 1 := by
  refine ⟨cleanup_list_eq_merge, ?_, offset_of_list_cleanup, ?_, ?_, by decide⟩
  · intro l
    rw [cleanup_list_eq_merge]
    exact filter_fulls_merge l
  · intro l
    simp only [cleanup_list_eq_merge]
    exact merge_gap_runs_idem l
  · intro s id
    by_cases h : s.blocks.any (Block.has_id id) <;> simp [Blocks.remove, h]

/-- C5 witness: `offset_of` through `cleanup` on a concrete gap run. -/
theorem C5_witness :
    offset_of_list (cleanup_list [Block.Gap 1, .Gap 2, .Full 7 3]) 7 0
      = offset_of_list [Block.Gap 1, .Gap 2, .Full (7 : Nat) 3] 7 0 :=
  C5_cleanup_merges_runs.2.2.1 [Block.Gap 1, .Gap 2, .Full 7 3] 7 0 (by decide)

/-- C4 witness: re-inserting id 3 (which went into the split front of a
gap) returns the same offset 0 and changes nothing. -/
theorem C4_witness :
    ((run_ops (Blocks.new 128 128) [.ins 1 3, .ins 2 2, .rem 1]).insert_sized 3 2).1.insert_sized 3 2
      = (((run_ops (Blocks.new 128 128) [.ins 1 3, .ins 2 2, .rem 1]).insert_sized 3 2).1, some 0) :=
  C4_insert_idempotent (run_ops (Blocks.new 128 128) [.ins 1 3, .ins 2 2, .rem 1])
    3 2 0 (by decide) (by decide)

/-- C8: along any sequence of `Bitset128` reserve/free calls with indices
below 128, `first_free` returns the lowest clear bit (`none` exactly when
all 128 bits are set), `reserve(i)` sets bit `i` and returns whether it
was already set, `free(i)` clears bit `i` and returns whether it was
already clear, and reserving a just-freed index returns `false`. -/
theorem C8_bitset_first_free :
    ∀ ops : List BitOp,
      bit_run 0 ops < 2 ^ 128 ∧
      (first_free (bit_run 0 ops) = none ↔ bit_run 0 ops = 2 ^ 128 - 1) ∧
      (∀ i, first_free (bit_run 0 ops) = some i →
        i < 128 ∧ (bit_run 0 ops).testBit i = false ∧
          ∀ j < i, (bit_run 0 ops).testBit j = true) ∧
      (∀ i, i < 128 →
        (reserve (bit_run 0 ops) i).2 = (bit_run 0 ops).testBit i ∧
        (∀ j, (reserve (bit_run 0 ops) i).1.testBit j
            = ((bit_run 0 ops).testBit j || decide (j = i))) ∧
        (free (bit_run 0 ops) i).2 = !((bit_run 0 ops).testBit i) ∧
        (∀ j, (free (bit_run 0 ops) i).1.testBit j
            = ((bit_run 0 ops).testBit j && !decide (j = i))) ∧
        (reserve (free (bit_run 0 ops) i).1 i).2 = false) := by
  intro ops
  have hv : bit_run 0 ops < 2 ^ 128 := bit_run_lt ops 0 (by norm_num)
  refine ⟨hv, first_free_none_iff _ hv,
    fun i h => first_free_some_spec _ i hv h, fun i hi => ?_⟩
  have hres := reserve_testBit (bit_run 0 ops) i hi
  have hfre := free_testBit (bit_run 0 ops) i hi hv
  refine ⟨hres.1, hres.2, hfre.1, hfre.2, ?_⟩
  have hres' := reserve_testBit (free (bit_run 0 ops) i).1 i hi
  rw [hres'.1, hfre.2 i]
  simp

/-- C8 witness: after reserving 0 and 1 then freeing 0, the lowest free
index is 0 again, and re-reserving the just-freed index 0 reports it was
not already taken. -/
theorem C8_witness :
    (reserve (free (bit_run 0 [.res 0, .res 1]) 0).1 0).2 = false ∧
      first_free (bit_run 0 [.res 0, .res 1, .fre 0]) = some 0 :=
  ⟨((C8_bitset_first_free [.res 0, .res 1]).2.2.2 0 (by norm_num)).2.2.2.2,
    by decide⟩

/-! ## Claim theorems: layer handle write-back -/

theorem layer_foldl_step (ops : List LayerOp) (st : LayerScope) :
    ops.foldl layer_step st =
      ⟨ops.foldl layer_setter st.value, st.reg_value, st.reg_writes⟩ := by
  induction ops generalizing st with
  | nil => rfl
  | cons op rest ih =>
    simp only [List.foldl_cons]
    rw [ih]
    rfl

/-- C7: every setter on a background-layer handle only changes the
handle's local copy — after any sequence of setter calls the hardware
register still holds its original value and its write count is
unchanged — and dropping the handle writes the register exactly once,
with the value obtained by folding all the setters over the initially
read value. -/
theorem C7_layer_write_back_on_drop :
    ∀ (v : BackgroundControl) (n : Nat) (ops : List LayerOp),
      (ops.foldl layer_step (layer_new v n)).reg_value = v ∧
      (ops.foldl layer_step (layer_new v n)).reg_writes = n ∧
      layer_scope v n ops =
        ⟨ops.foldl layer_setter v, ops.foldl layer_setter v, n + 1⟩ := by
  intro v n ops
  rw [layer_scope, layer_foldl_step ops (layer_new v n)]
  exact ⟨rfl, rfl, rfl⟩

/-! ## Claim theorems: sprite-tile allocator capacity -/

/-- C9 counterexample: the sprite-tile `Blocks` allocator is constructed
with `full_size = SPRITE_FULL_SIZE = 1024`, not 512 — and
`reserve_sprite` hands out tile slots at and beyond offset 512 (the
ninth 8×8 (64-tile) sprite lands at offset 512). -/
theorem C9_counterexample :
    SPRITE_FULL_SIZE ≠ 512 ∧ sprites_default.full_size = 1024 ∧
      Shape.tile_count .s8x8 = 64 ∧
      (reserve_sprite (run_ops sprites_default
        [.ins 1 64, .ins 2 64, .ins 3 64, .ins 4 64, .ins 5 64, .ins 6 64,
         .ins 7 64, .ins 8 64]) 9 Shape.s8x8).2 = some 512 := by
  exact ⟨by decide, by decide, by decide, by decide⟩

/-- C9 (amended): the sprite-tile allocator's `full_size` is 1024 (the
whole nominal tile space); 512 is `SPRITE_MAX_BLOCKS`, the entry-count
ceiling (`SPRITE_FULL_SIZE / 2`).  `reserve_sprite` can hand out the
full 1024-tile extent: sixteen 64-tile sprites fit (the sixteenth at
offset 960), a seventeenth fails. -/
theorem C9_amended_sprite_capacity :
    SPRITE_FULL_SIZE = 1024 ∧ SPRITE_MAX_BLOCKS = 512 ∧
      sprites_default = Blocks.new 512 1024 ∧
      (reserve_sprite (run_ops sprites_default
        [.ins 1 64, .ins 2 64, .ins 3 64, .ins 4 64, .ins 5 64, .ins 6 64,
         .ins 7 64, .ins 8 64, .ins 9 64, .ins 10 64, .ins 11 64, .ins 12 64,
         .ins 13 64, .ins 14 64, .ins 15 64]) 16 Shape.s8x8).2 = some 960 ∧
      (reserve_sprite (run_ops sprites_default
        [.ins 1 64, .ins 2 64, .ins 3 64, .ins 4 64, .ins 5 64, .ins 6 64,
         .ins 7 64, .ins 8 64, .ins 9 64, .ins 10 64, .ins 11 64, .ins 12 64,
         .ins 13 64, .ins 14 64, .ins 15 64, .ins 16 64]) 17 Shape.s8x8).2
        = none := by
  exact ⟨rfl, rfl, rfl, by decide, by decide⟩

/-! ## Claim theorems: object handle palette-bank flag -/

/-- C10: `set_sprite` writes the sprite slot offset into the attr2
tile-index field and unconditionally sets the attr0 palette-bank flag to
`true` (leaving every other field alone); `set_palette_mode(Bank)` sets
that flag to `false` (the source negates `matches!(kind, Bank)`), so a
`set_palette_mode(Bank)` followed by `set_sprite` does not leave the flag
as `set_palette_mode` chose — the two setters do not commute. -/
theorem C10_set_sprite_overrides_palette_mode :
    ∀ (v : Attributes) (offset : Nat),
      (set_sprite v offset).attr0_use_palbank = true ∧
      (set_sprite v offset).attr2_tile_index = offset ∧
      (set_sprite v offset).attr0_rest = v.attr0_rest ∧
      (set_sprite v offset).attr1 = v.attr1 ∧
      (set_sprite v offset).attr2_rest = v.attr2_rest ∧
      (set_palette_mode v PaletteType.Bank).attr0_use_palbank = false ∧
      (set_sprite (set_palette_mode v PaletteType.Bank) offset).attr0_use_palbank
        ≠ (set_palette_mode v PaletteType.Bank).attr0_use_palbank ∧
      set_palette_mode (set_sprite v offset) PaletteType.Bank
        ≠ set_sprite (set_palette_mode v PaletteType.Bank) offset := by
  intro v offset
  refine ⟨rfl, rfl, rfl, rfl, rfl, by simp [set_palette_mode], ?_, ?_⟩
  · simp [set_sprite, set_palette_mode]
  · intro h
    have := congrArg Attributes.attr0_use_palbank h
    simp [set_sprite, set_palette_mode] at this

/-! ## Lemmas: affine byte-level semantics -/

theorem byte_at_write_word (mem : AffineMem) (w : Nat) (e : AffineEntry)
    (i : Nat) :
    byte_at (write_word mem w e) i =
      if i / 2 = w then (if i % 2 = 0 then e.left else e.right)
      else byte_at mem i := by
  unfold byte_at write_word
  by_cases hw : i / 2 = w <;> by_cases h2 : i % 2 = 0 <;> simp [hw, h2]

theorem byte_at_set_couple (mem : AffineMem) (e : AffineEntry)
    (offset i : Nat) (he : offset % 2 = 0) :
    byte_at (set_couple_unchecked mem e offset) i =
      if i = offset then e.left
      else if i = offset + 1 then e.right
      else byte_at mem i := by
  unfold set_couple_unchecked
  rw [byte_at_write_word]
  by_cases hw : i / 2 = offset / 2
  · by_cases h2 : i % 2 = 0
    · have hio : i = offset := by omega
      rw [if_pos hw, if_pos h2, if_pos hio]
    · have hio : i = offset + 1 := by omega
      rw [if_pos hw, if_neg h2, if_neg (by omega), if_pos hio]
  · rw [if_neg hw, if_neg (by omega), if_neg (by omega)]

theorem byte_at_set_unique (mem : AffineMem) (t offset i : Nat) :
    byte_at (set_unique_unchecked mem t offset) i =
      if i = offset then t else byte_at mem i := by
  unfold set_unique_unchecked
  rw [byte_at_write_word]
  by_cases hw : i / 2 = offset / 2
  · by_cases ho : offset % 2 = 0 <;> by_cases h2 : i % 2 = 0
    · have hio : i = offset := by omega
      simp [hw, ho, h2, hio]
    · have hio : ¬ i = offset := by omega
      rw [if_pos hw, if_pos ho, if_neg h2, if_neg hio]
      unfold byte_at
      rw [if_neg h2, hw]
    · have hio : ¬ i = offset := by omega
      rw [if_pos hw, if_neg ho, if_pos h2, if_neg hio]
      unfold byte_at
      rw [if_pos h2, hw]
    · have hio : i = offset := by omega
      simp [hw, ho, h2, hio]
  · have hio : ¬ i = offset := by omega
    rw [if_neg hw, if_neg hio]

theorem byte_at_set_line_loop (mem : AffineMem) (offset : Nat)
    (ts : List Nat) :
    offset % 2 = 0 → ∀ i,
      byte_at (set_line_loop mem offset ts) i =
        (if offset ≤ i ∧ i < offset + ts.length then ts.getD (i - offset) 0
         else byte_at mem i) := by
  induction mem, offset, ts using set_line_loop.induct with
  | case1 mem offset =>
    intro he i
    rw [show set_line_loop mem offset [] = mem from rfl,
      if_neg (by simp only [List.length_nil]; omega)]
  | case2 mem offset left =>
    intro he i
    rw [show set_line_loop mem offset [left] =
      set_unique_unchecked mem left offset from rfl, byte_at_set_unique]
    by_cases hi : i = offset
    · subst hi
      rw [if_pos rfl, if_pos (by simp only [List.length_cons, List.length_nil]; omega)]
      simp
    · rw [if_neg hi, if_neg (by simp only [List.length_cons, List.length_nil]; omega)]
  | case3 mem offset a b rest ih =>
    intro he i
    rw [show set_line_loop mem offset (a :: b :: rest) =
      set_line_loop (set_couple_unchecked mem ⟨a, b⟩ offset) (offset + 2) rest
      from rfl]
    rw [ih (by omega) i, byte_at_set_couple mem ⟨a, b⟩ offset i he]
    by_cases h1 : offset + 2 ≤ i ∧ i < offset + 2 + rest.length
    · rw [if_pos h1, if_pos (by simp only [List.length_cons]; omega)]
      have hk : i - offset = (i - (offset + 2)) + 1 + 1 := by omega
      rw [hk, List.getD_cons_succ, List.getD_cons_succ]
    · rw [if_neg h1]
      by_cases h2 : i = offset
      · subst h2
        rw [if_pos rfl, if_pos (by simp only [List.length_cons]; omega)]
        simp
      · rw [if_neg h2]
        by_cases h3 : i = offset + 1
        · subst h3
          rw [if_pos rfl, if_pos (by simp only [List.length_cons]; omega)]
          have hk : offset + 1 - offset = 1 := by omega
          rw [hk, List.getD_cons_succ, List.getD_cons_zero]
        · rw [if_neg h3, if_neg (by simp only [List.length_cons]; omega)]

/-- C6: affine 8-bit tiles are packed two per 16-bit word, even offset in
the low byte.  `set_unique_unchecked` at an odd offset reads the word,
replaces only its high half, and writes it back; `set_line` (odd leading
tile by read-modify-write, then whole two-tile words, then a possible
lone trailing tile by read-modify-write) leaves, for every byte offset
`i` in the written range, exactly the tile written at `i` — the tile at
offset 2k in word k's low byte, the tile at 2k+1 in its high byte — and
every other byte untouched. -/
theorem C6_affine_set_line_packing :
    (∀ (mem : AffineMem) (t offset : Nat), offset % 2 = 1 →
      set_unique_unchecked mem t offset
        = write_word mem (offset / 2) ⟨(mem (offset / 2)).left, t⟩) ∧
    (∀ (size : AffineSize) (mem : AffineMem) (pos : Pos) (tiles : List Nat),
      pos.x < size.width → pos.y < size.height → ∀ i,
      byte_at (set_line size mem pos tiles) i =
        (if pos.x + pos.y * size.width ≤ i ∧
            i < pos.x + pos.y * size.width
              + (tiles.take (size.width - pos.x)).length
         then (tiles.take (size.width - pos.x)).getD
                (i - (pos.x + pos.y * size.width)) 0
         else byte_at mem i)) := by
  constructor
  · intro mem t offset ho
    simp only [set_unique_unchecked]
    rw [if_neg (show ¬ offset % 2 = 0 by omega)]
  · intro size mem pos tiles hx hy i
    unfold set_line
    rw [if_neg (by omega)]
    dsimp only
    by_cases hpar : (pos.x + pos.y * size.width) % 2 = 0
    · rw [if_pos hpar]
      exact byte_at_set_line_loop mem _ _ hpar i
    · rw [if_neg hpar]
      cases hts : tiles.take (size.width - pos.x) with
      | nil =>
        dsimp only
        rw [if_neg (by simp only [List.length_nil]; omega)]
      | cons t rest =>
        dsimp only
        rw [byte_at_set_line_loop _ (pos.x + pos.y * size.width + 1) rest
          (by omega) i, byte_at_set_unique]
        by_cases h1 : pos.x + pos.y * size.width + 1 ≤ i ∧
            i < pos.x + pos.y * size.width + 1 + rest.length
        · rw [if_pos h1, if_pos (by simp only [List.length_cons]; omega)]
          have hk : i - (pos.x + pos.y * size.width)
              = (i - (pos.x + pos.y * size.width + 1)) + 1 := by omega
          rw [hk, List.getD_cons_succ]
        · rw [if_neg h1]
          by_cases h2 : i = pos.x + pos.y * size.width
          · subst h2
            rw [if_pos rfl, if_pos (by simp only [List.length_cons]; omega)]
            simp
          · rw [if_neg h2, if_neg (by simp only [List.length_cons]; omega)]

/-- C6 witness: writing three tiles starting at the odd offset 1 of a
`Base`-sized (16-wide) affine map puts tile 11 at byte 2 (the low byte of
word 1) and leaves byte 0 untouched. -/
theorem C6_witness :
    byte_at (set_line AffineSize.Base (fun _ => ⟨9, 9⟩) ⟨1, 0⟩ [10, 11, 12]) 2
        = 11 ∧
      byte_at (set_line AffineSize.Base (fun _ => ⟨9, 9⟩) ⟨1, 0⟩ [10, 11, 12]) 0
        = 9 := by
  have h := C6_affine_set_line_packing.2 AffineSize.Base (fun _ => ⟨9, 9⟩)
    ⟨1, 0⟩ [10, 11, 12] (by decide) (by decide)
  constructor
  · rw [h 2]
    decide
  · rw [h 0]
    decide

end GssaRs
